import Mathlib

/-!
# Shortcut: subnet-based proxy bypass decision

A shallow embedding of `shortcut.go` (package `shortcut`): the decision
operation `Allow`, the constructors `New` and `NewFromReader`, the line reader
`readLines`, and the library functions they call (`net.IP.To4`,
`net.IP.To16`, `net.SplitHostPort`, `bufio.Scanner` with `bufio.ScanLines`).

Go strings are sequences of bytes; the bytes that the embedded functions
inspect (`:`, `[`, `]`, `/`, `.`, line feed, carriage return, digits) are
ASCII, so they are modelled on the characters of a Lean `String`.

The subnet index (`sortList`, `newSortList`, `sortList.Contains`) is declared
in a file of the package that is not part of the sources at hand; it is
modelled from the specification and marked as such.

The functions are embedded with total list operations. To show that no step
of `Allow` aborts, they are embedded a second time, in the namespace
`Checked`, with every index expression, slice expression and call through a
pointer as a step that can abort, and the two embeddings are proved to agree.
-/

namespace Shortcut

/-! ## Addresses (`net.IP`) -/

/-- One byte of an address. -/
abbrev Byte := Fin 256

/-- Go's `net.IP`, a byte slice: `nil` is the nil slice, `bytes bs` a non-nil
slice holding `bs`. -/
inductive IP where
  | nil : IP
  | bytes : List Byte → IP
deriving DecidableEq, Repr

/-- The bytes of the slice (none for the nil slice). -/
def IP.data : IP → List Byte
  | .nil => []
  | .bytes bs => bs

/-- Go's `len(ip)`. -/
def IP.len (ip : IP) : Nat := ip.data.length

/-- `net.IPv4len`. -/
def IPv4len : Nat := 4

/-- `net.IPv6len`. -/
def IPv6len : Nat := 16

/-- `net.isZeros`: every byte of the slice is zero. -/
def isZeros (p : List Byte) : Bool := p.all (fun b => b == 0)

/-- `net.v4InV6Prefix`: the twelve bytes that precede an IPv4 address mapped
into 16 bytes. -/
def v4InV6Prefix : List Byte := [0, 0, 0, 0, 0, 0, 0, 0, 0, 0, 0xff, 0xff]

/-- `net.IP.To4`: the 4-byte form of the address, or nil when there is none. -/
def IP.To4 (ip : IP) : IP :=
  if ip.len = IPv4len then ip
  else if ip.len = IPv6len ∧ isZeros (ip.data.take 10) = true ∧
      ip.data[10]? = some 0xff ∧ ip.data[11]? = some 0xff then
    .bytes ((ip.data.drop 12).take 4)
  else .nil

/-- `net.IP.To16`: the 16-byte form of the address, or nil when there is
none. The receiver may be the nil slice, whose length is zero. -/
def IP.To16 (ip : IP) : IP :=
  if ip.len = IPv4len then .bytes (v4InV6Prefix ++ ip.data)
  else if ip.len = IPv6len then ip
  else .nil

/-- `net.IPAddr`: an address with its zone. -/
structure IPAddr where
  IP : IP
  Zone : String
deriving DecidableEq, Repr

/-! ## `net.SplitHostPort` -/

/-- `bytealg.IndexByteString`: position of the first occurrence of `c`. -/
def indexByte (s : List Char) (c : Char) : Option Nat :=
  match s with
  | [] => none
  | x :: xs => if x = c then some 0 else (indexByte xs c).map (· + 1)

/-- `bytealg.LastIndexByteString`: position of the last occurrence of `c`. -/
def lastIndexByte (s : List Char) (c : Char) : Option Nat :=
  match s with
  | [] => none
  | x :: xs =>
    match lastIndexByte xs c with
    | some i => some (i + 1)
    | none => if x = c then some 0 else none

/-- The reasons for which `net.SplitHostPort` rejects its argument (the `Err`
text of the `net.AddrError` it returns). -/
inductive AddrError where
  | missingPort
  | tooManyColons
  | missingCloseBracket
  | unexpectedOpenBracket
  | unexpectedCloseBracket
deriving DecidableEq, Repr

/-- First part of `net.SplitHostPort`, after the last colon was found at
position `i`: the host, and the positions `j` and `k` from which no further
`[` resp. `]` may occur. -/
def splitHost (s : List Char) (i : Nat) : Except AddrError (List Char × Nat × Nat) :=
  if s.head? = some '[' then
    match indexByte s ']' with
    | none => .error .missingCloseBracket
    | some e =>
      if e + 1 = s.length then .error .missingPort
      else if e + 1 = i then .ok ((s.take e).drop 1, 1, e + 1)
      else if s[e + 1]? = some ':' then .error .tooManyColons
      else .error .missingPort
  else
    let host := s.take i
    if (indexByte host ':').isSome then .error .tooManyColons
    else .ok (host, 0, 0)

/-- `net.SplitHostPort`: splits `host:port`, `[host]:port` into host and
port, or reports why the argument has not that form. -/
def SplitHostPort (hostport : String) : Except AddrError (String × String) :=
  let s := hostport.data
  match lastIndexByte s ':' with
  | none => .error .missingPort
  | some i =>
    match splitHost s i with
    | .error e => .error e
    | .ok (host, j, k) =>
      if (indexByte (s.drop j) '[').isSome then .error .unexpectedOpenBracket
      else if (indexByte (s.drop k) ']').isSome then .error .unexpectedCloseBracket
      else .ok (String.mk host, String.mk (s.drop (i + 1)))

/-! ## The resolver -/

/-- The part of `*net.Resolver` that `Allow` uses: `LookupIPAddr` answers a
context and a host with a list of addresses or with an error. -/
structure Resolver (Ctx : Type) where
  LookupIPAddr : Ctx → String → Except String (List IPAddr)

/-! ## The subnet index (`sortList`) -/

/-- Modelled from the spec: the CIDR block stored by the subnet index (the
declaration of `sortList` and of its element type is in a file of the package
that is not among the sources). A block is a base address and a length of the
network part, of a fixed address family; the base address is kept masked and
read as an unsigned big-endian integer of the width of the family. -/
structure cidrBlock where
  /-- Width of the address family in bits: 32 or 128. -/
  bits : Nat
  /-- The masked base address, as an unsigned big-endian integer. -/
  base : Nat
  /-- Length of the network part in bits. -/
  ones : Nat
deriving DecidableEq, Repr

/-- Modelled from the spec: an address read as an unsigned big-endian
integer. -/
def beValue (bs : List Byte) : Nat := bs.foldl (fun acc b => acc * 256 + b.val) 0

/-- Modelled from the spec: masking, which clears the low-order host bits of
an address of `bits` bits and keeps its `ones` leading bits. -/
def maskTo (bits ones v : Nat) : Nat := v / 2 ^ (bits - ones) * 2 ^ (bits - ones)

/-- Modelled from the spec: membership of an address in one block: the
address is of the family of the block, and masked to the length of the
network part of the block it equals the stored base address. -/
def cidrBlock.Contains (b : cidrBlock) (ip : IP) : Bool :=
  decide (8 * ip.len = b.bits) && decide (maskTo b.bits b.ones (beValue ip.data) = b.base)

/-- Modelled from the spec: value of a decimal digit, for the parsing of an
entry (the parser of the index is not among the sources). -/
def digitVal (c : Char) : Option Nat :=
  if '0' ≤ c ∧ c ≤ '9' then some (c.toNat - '0'.toNat) else none

/-- Modelled from the spec: value of a hexadecimal digit, for the parsing of
an entry. -/
def hexVal (c : Char) : Option Nat :=
  if '0' ≤ c ∧ c ≤ '9' then some (c.toNat - '0'.toNat)
  else if 'a' ≤ c ∧ c ≤ 'f' then some (c.toNat - 'a'.toNat + 10)
  else if 'A' ≤ c ∧ c ≤ 'F' then some (c.toNat - 'A'.toNat + 10)
  else none

/-- Modelled from the spec: value of a string of digits in the given base,
read from the left with `acc` as the value read so far; none when a character
is not a digit. -/
def readDigits (digit : Char → Option Nat) (radix : Nat) (acc : Nat) : List Char → Option Nat
  | [] => some acc
  | c :: cs =>
    match digit c with
    | none => none
    | some d => readDigits digit radix (acc * radix + d) cs

/-- Modelled from the spec: a non-empty string of decimal digits. -/
def parseDec (cs : List Char) : Option Nat :=
  if cs = [] then none else readDigits digitVal 10 0 cs

/-- Modelled from the spec: a group of one to four hexadecimal digits of an
IPv6 address. -/
def parseHexGroup (cs : List Char) : Option Nat :=
  if cs = [] ∨ 4 < cs.length then none else readDigits hexVal 16 0 cs

/-- Modelled from the spec: one field of a dotted IPv4 address: one to three
decimal digits, without a leading zero before another digit, of value at most
255. -/
def parseOctet (cs : List Char) : Option Nat :=
  if 3 < cs.length ∨ (1 < cs.length ∧ cs.head? = some '0') then none
  else
    match parseDec cs with
    | some n => if n ≤ 255 then some n else none
    | none => none

/-- The fields of a text between the occurrences of a separator. -/
def splitOn (sep : Char) : List Char → List (List Char)
  | [] => [[]]
  | c :: cs =>
    if c = sep then [] :: splitOn sep cs
    else
      match splitOn sep cs with
      | [] => [[c]]
      | f :: fs => (c :: f) :: fs

/-- Modelled from the spec: applies a parser to every field of an address;
none as soon as one field fails. -/
def parseAll (p : List Char → Option Nat) : List (List Char) → Option (List Nat)
  | [] => some []
  | f :: fs =>
    match p f, parseAll p fs with
    | some n, some ns => some (n :: ns)
    | _, _ => none

/-- Modelled from the spec: the big-endian integer of a list of fields of `w`
bits each. -/
def joinFields (w : Nat) (fields : List Nat) : Nat :=
  fields.foldl (fun acc f => acc * 2 ^ w + f) 0

/-- Modelled from the spec: a dotted IPv4 address `a.b.c.d`, as a 32-bit
integer. -/
def parseIPv4 (cs : List Char) : Option Nat :=
  match parseAll parseOctet (splitOn '.' cs) with
  | some fields => if fields.length = 4 then some (joinFields 8 fields) else none
  | none => none

/-- Modelled from the spec: position of the first `::` in the text of an
address. -/
def indexDoubleColon : List Char → Option Nat
  | [] => none
  | [_] => none
  | c :: d :: cs =>
    if c = ':' ∧ d = ':' then some 0
    else (indexDoubleColon (d :: cs)).map (· + 1)

/-- Modelled from the spec: the colon-separated groups of a piece of an IPv6
address; the empty piece has no group. -/
def parseGroups (cs : List Char) : Option (List Nat) :=
  if cs = [] then some [] else parseAll parseHexGroup (splitOn ':' cs)

/-- Modelled from the spec: an IPv6 address as a 128-bit integer: eight groups
of hexadecimal digits separated by colons, where one `::` may stand for one or
more groups of zeros. A zone and a dotted IPv4 tail are not accepted. -/
def parseIPv6 (cs : List Char) : Option Nat :=
  match indexDoubleColon cs with
  | none =>
    match parseGroups cs with
    | some gs => if gs.length = 8 then some (joinFields 16 gs) else none
    | none => none
  | some i =>
    match parseGroups (cs.take i), parseGroups (cs.drop (i + 2)) with
    | some l, some r =>
      if l.length + r.length ≤ 7 then
        some (joinFields 16 (l ++ List.replicate (8 - (l.length + r.length)) 0 ++ r))
      else none
    | _, _ => none

/-- Modelled from the spec: parsing of one entry `<address>/<length>` into a
block. The address is a dotted IPv4 address or an IPv6 address in groups of
hexadecimal digits; the length is a decimal number between 0 and the width of
the family; the address is masked down to that length before it is stored.
Anything else is malformed and yields none. -/
def ParseCIDR (s : String) : Option cidrBlock :=
  let cs := s.data
  match indexByte cs '/' with
  | none => none
  | some i =>
    let addr := cs.take i
    let mask := cs.drop (i + 1)
    let parsed : Option (Nat × Nat) :=
      if (indexByte addr ':').isSome then (parseIPv6 addr).map (fun v => (128, v))
      else (parseIPv4 addr).map (fun v => (32, v))
    match parsed, parseDec mask with
    | some (bits, v), some n =>
      if n ≤ bits then some ⟨bits, maskTo bits n v, n⟩ else none
    | _, _ => none

/-- Modelled from the spec: insertion of a block into a list sorted ascending
by base address, before the first block whose base address is not
smaller. -/
def insertBlock (b : cidrBlock) : List cidrBlock → List cidrBlock
  | [] => [b]
  | x :: xs => if b.base ≤ x.base then b :: x :: xs else x :: insertBlock b xs

/-- Modelled from the spec: stable sort of the blocks, ascending by masked
base address. -/
def sortBlocks : List cidrBlock → List cidrBlock
  | [] => []
  | b :: bs => insertBlock b (sortBlocks bs)

/-- Modelled from the spec: the subnet index, a list of blocks sorted
ascending by masked base address (`sortList` is declared in a file of the
package that is not among the sources). -/
structure sortList where
  sorted : List cidrBlock
deriving DecidableEq, Repr

/-- Modelled from the spec: construction of the index (`newSortList` is
defined in a file of the package that is not among the sources). Every entry
is parsed, a malformed entry is skipped, and the blocks are sorted ascending
by masked base address. The callers in `New` pass the entries only, no
address family: a block carries the family of its address, and a query
matches blocks of the family of the queried address. -/
def newSortList (subnets : List String) : sortList :=
  ⟨sortBlocks (subnets.filterMap ParseCIDR)⟩

/-- Modelled from the spec: the loop of the binary search of the query,
written as the loop of Go's `sort.Search` on the range `[i, j)`, with the
number of iterations bounded by `fuel`. -/
def searchLoop (f : Nat → Bool) : Nat → Nat → Nat → Nat
  | 0, i, _ => i
  | fuel + 1, i, j =>
    if i < j then
      let h := (i + j) / 2
      if !f h then searchLoop f fuel (h + 1) j else searchLoop f fuel i h
    else i

/-- Modelled from the spec: the binary search of the query, as Go's
`sort.Search`: the smallest index in `[0, n)` at which the monotone predicate
`f` holds, `n` when there is none. The range shrinks at every iteration, so
`n` iterations are enough. -/
def Search (n : Nat) (f : Nat → Bool) : Nat := searchLoop f n 0 n

/-- Modelled from the spec: the predicate of the binary search of the query:
the base address of the block at position `i` of the sorted list is above the
value `v`; it holds beyond the end of the list. -/
def aboveAt (sorted : List cidrBlock) (v : Nat) (i : Nat) : Bool :=
  match sorted[i]? with
  | some b => decide (v < b.base)
  | none => true

/-- Modelled from the spec: the query of the index (`sortList.Contains` is
defined in a file of the package that is not among the sources). A binary
search on the sorted base addresses finds the position of the first block
whose base address is above the address; the blocks that sort before that
position are the candidates, and each of them is checked for containment. -/
def sortList.Contains (l : sortList) (ip : IP) : Bool :=
  let idx := Search l.sorted.length (aboveAt l.sorted (beValue ip.data))
  (l.sorted.take idx).any (fun b => b.Contains ip)

/-- Modelled from the spec: the linear scan that the query has to agree with:
some stored block contains the address. -/
def sortList.linearScan (l : sortList) (ip : IP) : Bool :=
  l.sorted.any (fun b => b.Contains ip)

/-! ## The shortcut -/

/-- What a call of `Allow` does to its collaborators, in order: a lookup of a
host by the resolver, a query of the IPv4 index, a query of the IPv6 index. -/
inductive Event where
  | lookup (host : String)
  | queryV4 (ip : IP)
  | queryV6 (ip : IP)
deriving DecidableEq, Repr

/-- The ways in which a step of `Allow` can abort: a method that reads
through a nil pointer, an index expression out of range, a slice expression
out of range. -/
inductive Abort where
  | nilDereference
  | indexOutOfRange
  | sliceOutOfRange
deriving DecidableEq, Repr

/-- The struct `shortcut`. The two indexes are pointers, nil being `none`. -/
structure shortcut (Ctx : Type) where
  v4list : Option sortList
  v6list : Option sortList
  resolver : Resolver Ctx

/-- The outcome of a call of `Allow`: the events in order, and the pair
returned unless a step aborted. -/
structure Outcome where
  trace : List Event
  result : Except Abort (Bool × IP)

/-- `(*sortList).Contains` called through a pointer: a nil pointer aborts. -/
def containsAt (p : Option sortList) (ip : IP) : Except Abort Bool :=
  match p with
  | none => .error .nilDereference
  | some l => .ok (l.Contains ip)

/-- The loop of `Allow` over the resolved addresses (lines 65 to 74). -/
def allowLoop {Ctx : Type} (s : shortcut Ctx) : List IPAddr → Outcome
  | [] => ⟨[], .ok (false, .nil)⟩
  | addr :: rest =>
    let ip := addr.IP.To4
    if ip ≠ .nil then
      ⟨[.queryV4 ip], (containsAt s.v4list ip).map (fun b => (b, ip))⟩
    else
      let ip := ip.To16
      if ip ≠ .nil then
        ⟨[.queryV6 ip], (containsAt s.v6list ip).map (fun b => (b, ip))⟩
      else allowLoop s rest

/-- The host that `Allow` hands to the resolver (lines 57 to 60): the host
part of `addr` when `net.SplitHostPort` accepts it, `addr` itself otherwise. -/
def hostOf (addr : String) : String :=
  match SplitHostPort addr with
  | .ok (host, _) => host
  | .error _ => addr

/-- `(*shortcut).Allow` (lines 56 to 75). -/
def shortcut.Allow {Ctx : Type} (s : shortcut Ctx) (ctx : Ctx) (addr : String) : Outcome :=
  let host := hostOf addr
  match s.resolver.LookupIPAddr ctx host with
  | .error _ => ⟨[.lookup host], .ok (false, .nil)⟩
  | .ok addrs =>
    let r := allowLoop s addrs
    ⟨.lookup host :: r.trace, r.result⟩

/-- Modelled from the spec: the pointer that `newSortList` returns to `New`
(the function is defined in a file of the package that is not among the
sources). By the specification the construction of an index succeeds for
every list of entries, an index of no block being legal: the pointer is never
nil and points to the index built. -/
def newSortListPtr (subnets : List String) : Option sortList :=
  some (newSortList subnets)

/-- `New` (lines 43 to 54). The resolver it binds, `net.DefaultResolver`, is a
variable of the library and is passed in; the debug log line has no effect on
the result. -/
def New {Ctx : Type} (DefaultResolver : Resolver Ctx)
    (ipv4Subnets ipv6Subnets : List String) : shortcut Ctx :=
  { v4list := newSortListPtr ipv4Subnets
    v6list := newSortListPtr ipv6Subnets
    resolver := DefaultResolver }

/-! ## Reading the subnets from a stream -/

/-- `bufio.MaxScanTokenSize`: the size of the buffer of a scanner, in
bytes. -/
def MaxScanTokenSize : Nat := 64 * 1024

/-- Number of bytes of a text in UTF-8. -/
def utf8Len (cs : List Char) : Nat := (cs.map Char.utf8Size).sum

/-- `bufio.dropCR`: drops a carriage return at the end of the data. -/
def dropCR (data : List Char) : List Char :=
  if data.getLast? = some '\r' then data.dropLast else data

/-- An `io.Reader` over a text, held by a `bufio.Scanner` with the split
function `bufio.ScanLines`: the state is the input not yet consumed. Reads do
not fail, and the end of the input is reported by a read of its own, as files
and in-memory readers do. -/
structure Scanner where
  unread : List Char

/-- One call of `Scan` followed by `Text`: the next line without its
terminator and the scanner after it, or none when the scan stops: at the end
of the input, or at a line that does not fit in the buffer together with its
line feed (`bufio.ErrTooLong`). -/
def Scanner.Scan (s : Scanner) : Option (String × Scanner) :=
  match indexByte s.unread '\n' with
  | some i =>
    if utf8Len (s.unread.take i) < MaxScanTokenSize then
      some (String.mk (dropCR (s.unread.take i)), ⟨s.unread.drop (i + 1)⟩)
    else none
  | none =>
    if s.unread = [] then none
    else if utf8Len s.unread < MaxScanTokenSize then
      some (String.mk (dropCR s.unread), ⟨[]⟩)
    else none

/-- The loop of `readLines` (lines 35 to 37), bounded by `fuel` iterations. -/
def readLoop : Nat → Scanner → List String → List String
  | 0, _, lines => lines
  | fuel + 1, s, lines =>
    match s.Scan with
    | none => lines
    | some (text, s') => readLoop fuel s' (lines ++ [text])

/-- `readLines` (lines 32 to 40): every line that the scanner yields is
appended. Each scan consumes at least one character, so as many iterations as
the stream has characters, and one more, reach the end of the loop. -/
def readLines (r : String) : List String :=
  readLoop (r.length + 1) ⟨r.data⟩ []

/-- `NewFromReader` (lines 26 to 30). -/
def NewFromReader {Ctx : Type} (DefaultResolver : Resolver Ctx) (v4 v6 : String) : shortcut Ctx :=
  New DefaultResolver (readLines v4) (readLines v6)

/-- The lines of a text, following the words of the interface description:
the pieces between line feeds, in order, without a piece after the last line
feed when it is empty; no terminator is removed yet. -/
def textLines (cs : List Char) : List (List Char) :=
  let fields := splitOn '\n' cs
  if fields.getLast? = some [] then fields.dropLast else fields

/-- The list of all lines of a stream in input order, one entry per line,
with the line terminator (a line feed, with a carriage return before it if
there is one) removed. -/
def allLines (r : String) : List String :=
  (textLines r.data).map (fun l => String.mk (dropCR l))

/-- The list of the non-empty lines of a stream in input order: one entry per
non-empty line with the line terminator removed, no entry for a blank
line. -/
def nonBlankLines (r : String) : List String :=
  (allLines r).filter (fun l => l ≠ "")

/-! ## The steps of `Allow` with their range and pointer checks

The definitions above read a position of a string or of a slice with total
list operations. The definitions of this section follow the same code with
every index expression, every slice expression and every call through a
pointer written as a step that aborts when Go would: they serve to show that
no such step of `Allow` aborts. -/

/-- Go's index expression `s[i]`: aborts when `i` is not below `len(s)`. -/
def indexAt {α : Type} (s : List α) (i : Nat) : Except Abort α :=
  match s[i]? with
  | some x => .ok x
  | none => .error .indexOutOfRange

/-- Go's slice expression `s[lo:hi]`: aborts unless `lo ≤ hi ≤ len(s)`. -/
def sliceAt {α : Type} (s : List α) (lo hi : Nat) : Except Abort (List α) :=
  if lo ≤ hi ∧ hi ≤ s.length then .ok ((s.take hi).drop lo)
  else .error .sliceOutOfRange

namespace Checked

/-- `net.IP.To4` with its slice and index expressions checked: `ip[0:10]`,
`ip[10]`, `ip[11]` and `ip[12:16]` are evaluated in this order, each only when
the conditions before it hold. -/
def To4 (ip : IP) : Except Abort IP :=
  if ip.len = IPv4len then .ok ip
  else if ip.len = IPv6len then
    (sliceAt ip.data 0 10).bind fun zeros =>
    if isZeros zeros = true then
      (indexAt ip.data 10).bind fun b10 =>
      if b10 = 0xff then
        (indexAt ip.data 11).bind fun b11 =>
        if b11 = 0xff then
          (sliceAt ip.data 12 16).bind fun tail => .ok (.bytes tail)
        else .ok .nil
      else .ok .nil
    else .ok .nil
  else .ok .nil

/-- `net.IP.To16` with its index expressions checked: for a slice of four
bytes the result is `net.IPv4(ip[0], ip[1], ip[2], ip[3])`. The receiver may
be the nil slice: its length is read, which is zero, and nothing else. -/
def To16 (ip : IP) : Except Abort IP :=
  if ip.len = IPv4len then
    (indexAt ip.data 0).bind fun a =>
    (indexAt ip.data 1).bind fun b =>
    (indexAt ip.data 2).bind fun c =>
    (indexAt ip.data 3).bind fun d =>
    .ok (.bytes (v4InV6Prefix ++ [a, b, c, d]))
  else if ip.len = IPv6len then .ok ip
  else .ok .nil

/-- The first part of `net.SplitHostPort` with its expressions `hostport[0]`,
`hostport[end+1]`, `hostport[1:end]` and `hostport[:i]` checked. -/
def splitHost (s : List Char) (i : Nat) :
    Except Abort (Except AddrError (List Char × Nat × Nat)) :=
  (indexAt s 0).bind fun first =>
  if first = '[' then
    match indexByte s ']' with
    | none => .ok (.error .missingCloseBracket)
    | some e =>
      if e + 1 = s.length then .ok (.error .missingPort)
      else if e + 1 = i then
        (sliceAt s 1 e).bind fun host => .ok (.ok (host, 1, e + 1))
      else
        (indexAt s (e + 1)).bind fun next =>
        if next = ':' then .ok (.error .tooManyColons)
        else .ok (.error .missingPort)
  else
    (sliceAt s 0 i).bind fun host =>
    if (indexByte host ':').isSome then .ok (.error .tooManyColons)
    else .ok (.ok (host, 0, 0))

/-- `net.SplitHostPort` with its index and slice expressions checked, the
expressions `hostport[j:]`, `hostport[k:]` and `hostport[i+1:]` included. -/
def SplitHostPort (hostport : String) :
    Except Abort (Except AddrError (String × String)) :=
  let s := hostport.data
  match lastIndexByte s ':' with
  | none => .ok (.error .missingPort)
  | some i =>
    (splitHost s i).bind fun r =>
    match r with
    | .error e => .ok (.error e)
    | .ok (host, j, k) =>
      (sliceAt s j s.length).bind fun fromJ =>
      if (indexByte fromJ '[').isSome then .ok (.error .unexpectedOpenBracket)
      else
        (sliceAt s k s.length).bind fun fromK =>
        if (indexByte fromK ']').isSome then .ok (.error .unexpectedCloseBracket)
        else
          (sliceAt s (i + 1) s.length).bind fun port =>
          .ok (.ok (String.mk host, String.mk port))

/-- Modelled from the spec: the predicate of the binary search of the query,
with the index expression on the sorted list checked. -/
def aboveAt (sorted : List cidrBlock) (v : Nat) (i : Nat) : Except Abort Bool :=
  (indexAt sorted i).bind fun b => .ok (decide (v < b.base))

/-- Modelled from the spec: the loop of the binary search of the query, with a
predicate that can abort. -/
def searchLoop (f : Nat → Except Abort Bool) : Nat → Nat → Nat → Except Abort Nat
  | 0, i, _ => .ok i
  | fuel + 1, i, j =>
    if i < j then
      (f ((i + j) / 2)).bind fun above =>
      if !above then searchLoop f fuel ((i + j) / 2 + 1) j
      else searchLoop f fuel i ((i + j) / 2)
    else .ok i

/-- Modelled from the spec: the query of the index, called through the pointer
that the shortcut holds: the read of the list through a nil pointer, the index
expressions of the binary search and the slice of the candidates are
checked. -/
def Contains (p : Option sortList) (ip : IP) : Except Abort Bool :=
  match p with
  | none => .error .nilDereference
  | some l =>
    (searchLoop (aboveAt l.sorted (beValue ip.data)) l.sorted.length 0 l.sorted.length).bind
      fun idx =>
    (sliceAt l.sorted 0 idx).bind fun candidates =>
    .ok (candidates.any (fun b => b.Contains ip))

/-- The loop of `Allow` (lines 65 to 74) with every step checked. -/
def allowLoop {Ctx : Type} (s : shortcut Ctx) : List IPAddr → Except Abort (Bool × IP)
  | [] => .ok (false, .nil)
  | addr :: rest =>
    (To4 addr.IP).bind fun ip =>
    if ip ≠ .nil then
      (Contains s.v4list ip).bind fun allowed => .ok (allowed, ip)
    else
      (To16 ip).bind fun ip =>
      if ip ≠ .nil then
        (Contains s.v6list ip).bind fun allowed => .ok (allowed, ip)
      else allowLoop s rest

/-- `(*shortcut).Allow` (lines 56 to 75) with every step checked: the pair it
returns, or the step that aborted. -/
def Allow {Ctx : Type} (s : shortcut Ctx) (ctx : Ctx) (addr : String) :
    Except Abort (Bool × IP) :=
  (SplitHostPort addr).bind fun r =>
  let host := match r with
    | .ok (host, _) => host
    | .error _ => addr
  match s.resolver.LookupIPAddr ctx host with
  | .error _ => .ok (false, .nil)
  | .ok addrs => allowLoop s addrs

end Checked

/-! ## Predicates used in the statements -/

/-- A text without colon and without square bracket: a bare host name, a
decimal port number, a service name. -/
def isBare (s : String) : Prop :=
  ':' ∉ s.data ∧ '[' ∉ s.data ∧ ']' ∉ s.data

instance (s : String) : Decidable (isBare s) := by
  unfold isBare; infer_instance

/-- An entry is well formed when it parses as a CIDR block; it is malformed
otherwise. -/
def wellFormed (s : String) : Bool := (ParseCIDR s).isSome

/-! ## Example data -/

/-- The address 2001:db8::1 in 16 bytes. -/
def exampleV6 : IP :=
  .bytes [0x20, 0x01, 0x0d, 0xb8, 0, 0, 0, 0, 0, 0, 0, 0, 0, 0, 0, 1]

/-- A resolver for the examples. It answers the literal `93.184.216.34` with
that address, `ipv6.example` with one IPv6 address, `mixed.example` with an
IPv6 address followed by two IPv4 addresses, `odd.example` with addresses of
no family, `empty.example` with no address, and fails for any other host. -/
def exampleResolver : Resolver Unit :=
  ⟨fun _ host =>
    if host = "93.184.216.34" then .ok [⟨.bytes [93, 184, 216, 34], ""⟩]
    else if host = "ipv6.example" then .ok [⟨exampleV6, ""⟩]
    else if host = "mixed.example" then
      .ok [⟨exampleV6, ""⟩, ⟨.bytes [10, 1, 2, 3], ""⟩, ⟨.bytes [8, 8, 8, 8], ""⟩]
    else if host = "odd.example" then .ok [⟨.bytes [1, 2, 3], ""⟩, ⟨.nil, ""⟩]
    else if host = "empty.example" then .ok []
    else .error "no such host"⟩

/-- A resolver for the examples, which answers the IPv6 literal
`::ffff:10.1.2.3` with that address in 16 bytes, the address 10.1.2.3 mapped
into IPv6, and fails for any other host, a bracketed destination included. -/
def mappedResolver : Resolver Unit :=
  ⟨fun _ host =>
    if host = "::ffff:10.1.2.3" then
      .ok [⟨.bytes [0, 0, 0, 0, 0, 0, 0, 0, 0, 0, 0xff, 0xff, 10, 1, 2, 3], ""⟩]
    else .error "no such host"⟩

/-! ## Facts about the address conversions and the loop of `Allow` -/

theorem To16_nil : IP.nil.To16 = IP.nil := by decide

theorem allowLoop_cons_v4 {Ctx : Type} (s : shortcut Ctx) (a : IPAddr) (rest : List IPAddr)
    (ha : a.IP.To4 ≠ .nil) :
    allowLoop s (a :: rest) =
      ⟨[.queryV4 a.IP.To4], (containsAt s.v4list a.IP.To4).map (fun b => (b, a.IP.To4))⟩ := by
  simp [allowLoop, ha]

theorem allowLoop_cons_skip {Ctx : Type} (s : shortcut Ctx) (a : IPAddr) (rest : List IPAddr)
    (ha : a.IP.To4 = .nil) :
    allowLoop s (a :: rest) = allowLoop s rest := by
  simp [allowLoop, ha, To16_nil]

theorem allowLoop_skip {Ctx : Type} (s : shortcut Ctx) (pre rest : List IPAddr)
    (hpre : ∀ x ∈ pre, x.IP.To4 = .nil) :
    allowLoop s (pre ++ rest) = allowLoop s rest := by
  induction pre with
  | nil => rfl
  | cons x xs ih =>
    have hx : x.IP.To4 = .nil := hpre x (List.mem_cons_self x xs)
    have hxs : ∀ y ∈ xs, y.IP.To4 = .nil := fun y hy => hpre y (List.mem_cons_of_mem x hy)
    rw [List.cons_append, allowLoop_cons_skip s x (xs ++ rest) hx, ih hxs]

theorem allowLoop_none {Ctx : Type} (s : shortcut Ctx) (addrs : List IPAddr)
    (h : ∀ x ∈ addrs, x.IP.To4 = .nil) :
    allowLoop s addrs = ⟨[], .ok (false, .nil)⟩ := by
  have := allowLoop_skip s addrs [] h
  simpa [allowLoop] using this

/-- The loop either finds no address with a 4-byte form, or stops at the first
one, after addresses that have none. -/
theorem allowLoop_cases (addrs : List IPAddr) :
    (∀ x ∈ addrs, x.IP.To4 = .nil) ∨
    ∃ pre a post, addrs = pre ++ a :: post ∧ (∀ x ∈ pre, x.IP.To4 = .nil) ∧ a.IP.To4 ≠ .nil := by
  induction addrs with
  | nil => left; simp
  | cons x xs ih =>
    by_cases hx : x.IP.To4 = .nil
    · rcases ih with h | ⟨pre, a, post, he, hp, ha⟩
      · left
        intro y hy
        rcases List.mem_cons.mp hy with rfl | hy
        · exact hx
        · exact h y hy
      · right
        refine ⟨x :: pre, a, post, by simp [he], ?_, ha⟩
        intro y hy
        rcases List.mem_cons.mp hy with rfl | hy
        · exact hx
        · exact hp y hy
    · right
      exact ⟨[], x, xs, rfl, by simp, hx⟩

theorem Allow_ok {Ctx : Type} (s : shortcut Ctx) (ctx : Ctx) (addr : String)
    (addrs : List IPAddr) (h : s.resolver.LookupIPAddr ctx (hostOf addr) = .ok addrs) :
    s.Allow ctx addr =
      ⟨.lookup (hostOf addr) :: (allowLoop s addrs).trace, (allowLoop s addrs).result⟩ := by
  simp [shortcut.Allow, h]

theorem Allow_error {Ctx : Type} (s : shortcut Ctx) (ctx : Ctx) (addr : String)
    (e : String) (h : s.resolver.LookupIPAddr ctx (hostOf addr) = .error e) :
    s.Allow ctx addr = ⟨[.lookup (hostOf addr)], .ok (false, .nil)⟩ := by
  simp [shortcut.Allow, h]

/-! ## Facts about `net.SplitHostPort` -/

theorem indexByte_eq_none {s : List Char} {c : Char} (h : c ∉ s) : indexByte s c = none := by
  induction s with
  | nil => rfl
  | cons x xs ih =>
    have hx : x ≠ c := fun e => h (e ▸ List.mem_cons_self x xs)
    have hxs : c ∉ xs := fun m => h (List.mem_cons_of_mem x m)
    simp [indexByte, hx, ih hxs]

theorem lastIndexByte_eq_none {s : List Char} {c : Char} (h : c ∉ s) :
    lastIndexByte s c = none := by
  induction s with
  | nil => rfl
  | cons x xs ih =>
    have hx : x ≠ c := fun e => h (e ▸ List.mem_cons_self x xs)
    have hxs : c ∉ xs := fun m => h (List.mem_cons_of_mem x m)
    simp [lastIndexByte, hx, ih hxs]

theorem lastIndexByte_append_sep (hs ps : List Char) (c : Char) (hp : c ∉ ps) :
    lastIndexByte (hs ++ c :: ps) c = some hs.length := by
  induction hs with
  | nil => simp [lastIndexByte, lastIndexByte_eq_none hp]
  | cons x xs ih => simp [lastIndexByte, ih]

theorem SplitHostPort_bare_error (h : String) (hh : isBare h) :
    SplitHostPort h = .error .missingPort := by
  simp [SplitHostPort, lastIndexByte_eq_none hh.1]

theorem drop_length_succ_append (hs ps : List Char) (c : Char) :
    (hs ++ c :: ps).drop (hs.length + 1) = ps := by
  induction hs with
  | nil => rfl
  | cons x xs ih => simp

theorem take_length_append (hs ps : List Char) : (hs ++ ps).take hs.length = hs := by
  induction hs with
  | nil => simp
  | cons x xs ih => simp

theorem SplitHostPort_bare_ok (h p : String) (hh : isBare h) (hp : isBare p) :
    SplitHostPort (h ++ ":" ++ p) = .ok (h, p) := by
  obtain ⟨h1, h2, h3⟩ := hh
  obtain ⟨p1, p2, p3⟩ := hp
  have hdata : (h ++ ":" ++ p).data = h.data ++ ':' :: p.data := by
    simp [String.data_append]
  have hopen : '[' ∉ h.data ++ ':' :: p.data := by
    simp [h2, p2]
  have hclose : ']' ∉ h.data ++ ':' :: p.data := by
    simp [h3, p3]
  have hhead : (h.data ++ ':' :: p.data).head? ≠ some '[' := by
    cases hd : h.data with
    | nil => simp
    | cons x xs =>
      have : x ≠ '[' := fun e => h2 (by rw [hd, e]; exact List.mem_cons_self _ _)
      simp [this]
  have hsplit : splitHost (h.data ++ ':' :: p.data) h.data.length = .ok (h.data, 0, 0) := by
    unfold splitHost
    rw [if_neg hhead, take_length_append]
    simp [indexByte_eq_none h1]
  simp only [SplitHostPort, hdata, lastIndexByte_append_sep h.data p.data (':') p1, hsplit,
    List.drop_zero, indexByte_eq_none hopen, indexByte_eq_none hclose,
    drop_length_succ_append]
  rfl

theorem hostOf_bare (h : String) (hh : isBare h) : hostOf h = h := by
  simp [hostOf, SplitHostPort_bare_error h hh]

theorem hostOf_bare_port (h p : String) (hh : isBare h) (hp : isBare p) :
    hostOf (h ++ ":" ++ p) = h := by
  simp [hostOf, SplitHostPort_bare_ok h p hh hp]

theorem digitChar_bare : ∀ d, d < 10 →
    Nat.digitChar d ≠ ':' ∧ Nat.digitChar d ≠ '[' ∧ Nat.digitChar d ≠ ']' := by
  decide

theorem toDigitsCore_bare (fuel : Nat) : ∀ (n : Nat) (ds : List Char),
    (∀ c ∈ ds, c ≠ ':' ∧ c ≠ '[' ∧ c ≠ ']') →
    ∀ c ∈ Nat.toDigitsCore 10 fuel n ds, c ≠ ':' ∧ c ≠ '[' ∧ c ≠ ']' := by
  induction fuel with
  | zero => intro n ds h; simpa [Nat.toDigitsCore] using h
  | succ k ih =>
    intro n ds h
    have hd := digitChar_bare (n % 10) (Nat.mod_lt n (by decide))
    have hds : ∀ c ∈ Nat.digitChar (n % 10) :: ds, c ≠ ':' ∧ c ≠ '[' ∧ c ≠ ']' := by
      intro c hc
      rcases List.mem_cons.mp hc with rfl | hc
      · exact hd
      · exact h c hc
    unfold Nat.toDigitsCore
    by_cases hz : n / 10 = 0
    · simp only [hz, if_true]
      exact hds
    · simp only [hz, if_false]
      exact ih (n / 10) _ hds

/-- The decimal numeral of a port number has no colon and no bracket. -/
theorem isBare_toString (n : Nat) : isBare (toString n) := by
  have h := toDigitsCore_bare (n + 1) n [] (by simp)
  have hdata : (toString n).data = Nat.toDigitsCore 10 (n + 1) n [] := rfl
  unfold isBare
  rw [hdata]
  exact ⟨fun m => (h _ m).1 rfl, fun m => (h _ m).2.1 rfl, fun m => (h _ m).2.2 rfl⟩

theorem Allow_trace_head {Ctx : Type} (s : shortcut Ctx) (ctx : Ctx) (addr : String) :
    (s.Allow ctx addr).trace.head? = some (.lookup (hostOf addr)) := by
  cases h : s.resolver.LookupIPAddr ctx (hostOf addr) with
  | error e => rw [Allow_error s ctx addr e h]; rfl
  | ok addrs => rw [Allow_ok s ctx addr addrs h]; rfl

/-- The outcome of `Allow` depends on the destination only through the host
that is handed to the resolver. -/
theorem Allow_congr_host {Ctx : Type} (s : shortcut Ctx) (ctx : Ctx) (a b : String)
    (h : hostOf a = hostOf b) : s.Allow ctx a = s.Allow ctx b := by
  unfold shortcut.Allow
  rw [h]

/-! ## The decision operation -/

/-- C1: when the resolver succeeds and some resolved address has a 4-byte
form, `Allow` returns the answer of the IPv4 index for the 4-byte form of the
first such address, paired with that form, whatever precedes that address in
the list (addresses without a 4-byte form) and whatever follows it. -/
theorem Allow_first_v4 {Ctx : Type} (s : shortcut Ctx) (l : sortList) (ctx : Ctx)
    (addr : String) (addrs pre post : List IPAddr) (a : IPAddr)
    (hl : s.v4list = some l)
    (hres : s.resolver.LookupIPAddr ctx (hostOf addr) = .ok addrs)
    (hsplit : addrs = pre ++ a :: post)
    (hpre : ∀ x ∈ pre, x.IP.To4 = .nil)
    (ha : a.IP.To4 ≠ .nil) :
    (s.Allow ctx addr).result = .ok (l.Contains a.IP.To4, a.IP.To4) := by
  rw [Allow_ok s ctx addr addrs hres, hsplit, allowLoop_skip s pre (a :: post) hpre,
    allowLoop_cons_v4 s a post ha, hl]
  rfl

/-- C1, at the example of the specification, and at a list where the first
address with a 4-byte form (10.1.2.3, allowed) stands after an IPv6 address
and before an address that is not allowed. -/
theorem Allow_first_v4_witness :
    ((New exampleResolver ["93.184.216.0/24"] []).Allow () "93.184.216.34:443").result
        = .ok (true, .bytes [93, 184, 216, 34]) ∧
    ((New exampleResolver ["10.0.0.0/8"] ["2001:db8::/32"]).Allow () "mixed.example:80").result
        = .ok (true, .bytes [10, 1, 2, 3]) :=
  ⟨Allow_first_v4 (New exampleResolver ["93.184.216.0/24"] []) (newSortList ["93.184.216.0/24"])
      () "93.184.216.34:443" [⟨.bytes [93, 184, 216, 34], ""⟩] [] []
      ⟨.bytes [93, 184, 216, 34], ""⟩ rfl rfl rfl (by simp) (by decide),
   Allow_first_v4 (New exampleResolver ["10.0.0.0/8"] ["2001:db8::/32"]) (newSortList ["10.0.0.0/8"])
      () "mixed.example:80"
      [⟨exampleV6, ""⟩, ⟨.bytes [10, 1, 2, 3], ""⟩, ⟨.bytes [8, 8, 8, 8], ""⟩]
      [⟨exampleV6, ""⟩] [⟨.bytes [8, 8, 8, 8], ""⟩]
      ⟨.bytes [10, 1, 2, 3], ""⟩ rfl rfl rfl (by decide) (by decide)⟩

/-- The IPv6 index is never queried: the address converted on line 70 is the
nil result of `To4`, not the resolved address. -/
theorem Allow_never_queries_v6 {Ctx : Type} (s : shortcut Ctx) (ctx : Ctx) (addr : String)
    (ip : IP) : Event.queryV6 ip ∉ (s.Allow ctx addr).trace := by
  cases h : s.resolver.LookupIPAddr ctx (hostOf addr) with
  | error e => rw [Allow_error s ctx addr e h]; simp
  | ok addrs =>
    rw [Allow_ok s ctx addr addrs h]
    rcases allowLoop_cases addrs with hn | ⟨pre, a, post, he, hp, ha⟩
    · rw [allowLoop_none s addrs hn]; simp
    · rw [he, allowLoop_skip s pre (a :: post) hp, allowLoop_cons_v4 s a post ha]; simp

/-- C2: for a host with one IPv6 address, 2001:db8::1, which has no 4-byte
form, has a 16-byte form and lies in the configured IPv6 subnet
2001:db8::/32, `Allow` looks the host up, queries no index and returns
false with no address. -/
theorem Allow_v6_only_denied :
    exampleResolver.LookupIPAddr () (hostOf "ipv6.example:443") = .ok [⟨exampleV6, ""⟩] ∧
    exampleV6.To4 = .nil ∧ exampleV6.To16 = exampleV6 ∧
    (newSortList ["2001:db8::/32"]).Contains exampleV6 = true ∧
    (New exampleResolver [] ["2001:db8::/32"]).v6list = some (newSortList ["2001:db8::/32"]) ∧
    ((New exampleResolver [] ["2001:db8::/32"]).Allow () "ipv6.example:443").result
      = .ok (false, .nil) ∧
    ((New exampleResolver [] ["2001:db8::/32"]).Allow () "ipv6.example:443").trace
      = [.lookup "ipv6.example"] :=
  ⟨rfl, by decide, by decide, by decide, rfl, rfl, by decide⟩

/-- C3: when the lookup of the host fails, `Allow` returns false with no
address, and the lookup is the only thing it did: no index is queried. This
holds for every shortcut, whatever its indexes. -/
theorem Allow_lookup_failure {Ctx : Type} (s : shortcut Ctx) (ctx : Ctx) (addr : String)
    (e : String) (h : s.resolver.LookupIPAddr ctx (hostOf addr) = .error e) :
    (s.Allow ctx addr).result = .ok (false, .nil) ∧
    (s.Allow ctx addr).trace = [.lookup (hostOf addr)] ∧
    (∀ ip, Event.queryV4 ip ∉ (s.Allow ctx addr).trace ∧
      Event.queryV6 ip ∉ (s.Allow ctx addr).trace) := by
  rw [Allow_error s ctx addr e h]
  simp

/-- C3, at a host that the example resolver does not know, with an IPv4 index
that holds every address. -/
theorem Allow_lookup_failure_witness :
    exampleResolver.LookupIPAddr () (hostOf "unknown.example:443") = .error "no such host" ∧
    ((New exampleResolver ["0.0.0.0/0"] ["::/0"]).Allow () "unknown.example:443").result
      = .ok (false, .nil) ∧
    ((New exampleResolver ["0.0.0.0/0"] ["::/0"]).Allow () "unknown.example:443").trace
      = [.lookup "unknown.example"] :=
  have h := Allow_lookup_failure (New exampleResolver ["0.0.0.0/0"] ["::/0"]) ()
    "unknown.example:443" "no such host" rfl
  ⟨rfl, h.1, h.2.1⟩

/-- C4: when the resolver succeeds with a list in which no address has a
4-byte or a 16-byte form, the empty list included, `Allow` returns false with
no address. -/
theorem Allow_no_representable {Ctx : Type} (s : shortcut Ctx) (ctx : Ctx) (addr : String)
    (addrs : List IPAddr)
    (hres : s.resolver.LookupIPAddr ctx (hostOf addr) = .ok addrs)
    (h : ∀ a ∈ addrs, a.IP.To4 = .nil ∧ a.IP.To16 = .nil) :
    (s.Allow ctx addr).result = .ok (false, .nil) := by
  rw [Allow_ok s ctx addr addrs hres, allowLoop_none s addrs (fun a ha => (h a ha).1)]

/-- C4, at a list with an address of three bytes and a nil address, and at the
empty list. -/
theorem Allow_no_representable_witness :
    ((New exampleResolver ["0.0.0.0/0"] ["::/0"]).Allow () "odd.example:443").result
      = .ok (false, .nil) ∧
    ((New exampleResolver ["0.0.0.0/0"] ["::/0"]).Allow () "empty.example").result
      = .ok (false, .nil) :=
  ⟨Allow_no_representable (New exampleResolver ["0.0.0.0/0"] ["::/0"]) () "odd.example:443"
      [⟨.bytes [1, 2, 3], ""⟩, ⟨.nil, ""⟩] rfl (by decide),
   Allow_no_representable (New exampleResolver ["0.0.0.0/0"] ["::/0"]) () "empty.example"
      [] rfl (by simp)⟩

/-- C5: whenever `Allow` returns true, the address it returns is not nil, it
is the 4-byte or the 16-byte form of one of the addresses that the resolver
returned for the host of the destination, and it is the address with which
an index was queried. -/
theorem Allow_true_has_ip {Ctx : Type} (s : shortcut Ctx) (ctx : Ctx) (addr : String)
    (ip : IP) (h : (s.Allow ctx addr).result = .ok (true, ip)) :
    ip ≠ .nil ∧
    ∃ addrs a, s.resolver.LookupIPAddr ctx (hostOf addr) = .ok addrs ∧ a ∈ addrs ∧
      (ip = a.IP.To4 ∨ ip = a.IP.To16) ∧
      ((s.Allow ctx addr).trace = [.lookup (hostOf addr), .queryV4 ip] ∨
       (s.Allow ctx addr).trace = [.lookup (hostOf addr), .queryV6 ip]) := by
  cases hres : s.resolver.LookupIPAddr ctx (hostOf addr) with
  | error e =>
    rw [Allow_error s ctx addr e hres] at h
    simp at h
  | ok addrs =>
    rw [Allow_ok s ctx addr addrs hres] at h ⊢
    rcases allowLoop_cases addrs with hn | ⟨pre, a, post, he, hp, ha⟩
    · rw [allowLoop_none s addrs hn] at h
      simp at h
    · rw [he, allowLoop_skip s pre (a :: post) hp, allowLoop_cons_v4 s a post ha] at h ⊢
      cases hl : s.v4list with
      | none =>
        rw [hl] at h
        simp [containsAt, Except.map] at h
      | some l =>
        rw [hl] at h
        simp only [containsAt, Except.map, Except.ok.injEq, Prod.mk.injEq] at h
        obtain ⟨_, hip⟩ := h
        subst hip
        exact ⟨ha, pre ++ a :: post, a, rfl, by simp, Or.inl rfl, Or.inl rfl⟩

/-- C5, at the example of the specification. -/
theorem Allow_true_has_ip_witness :
    ((New exampleResolver ["93.184.216.0/24"] []).Allow () "93.184.216.34:443").result
      = .ok (true, .bytes [93, 184, 216, 34]) ∧
    IP.bytes [93, 184, 216, 34] ≠ .nil :=
  ⟨rfl, (Allow_true_has_ip (New exampleResolver ["93.184.216.0/24"] []) ()
      "93.184.216.34:443" (.bytes [93, 184, 216, 34]) rfl).1⟩

/-- C6, as stated, fails at a port text with a colon: `93.184.216.34` is a host
without colon and bracket, the destination `93.184.216.34:80:90` is rejected
by `net.SplitHostPort` for its colons, so the whole destination is looked up,
which the resolver does not know, whereas the destination `93.184.216.34` is
resolved and allowed. -/
theorem Allow_port_with_colon :
    isBare "93.184.216.34" ∧
    SplitHostPort ("93.184.216.34" ++ ":" ++ "80:90") = .error .tooManyColons ∧
    (New exampleResolver ["93.184.216.0/24"] []).Allow () ("93.184.216.34" ++ ":" ++ "80:90")
      = ⟨[.lookup "93.184.216.34:80:90"], .ok (false, .nil)⟩ ∧
    (New exampleResolver ["93.184.216.0/24"] []).Allow () "93.184.216.34"
      = ⟨[.lookup "93.184.216.34", .queryV4 (.bytes [93, 184, 216, 34])],
          .ok (true, .bytes [93, 184, 216, 34])⟩ ∧
    (New exampleResolver ["93.184.216.0/24"] []).Allow () ("93.184.216.34" ++ ":" ++ "80:90")
      ≠ (New exampleResolver ["93.184.216.0/24"] []).Allow () "93.184.216.34" := by
  refine ⟨by decide, rfl, rfl, rfl, ?_⟩
  intro h
  have h2 : (Except.ok (false, IP.nil) : Except Abort (Bool × IP))
      = Except.ok (true, IP.bytes [93, 184, 216, 34]) := congrArg Outcome.result h
  simp at h2

/-- C6, amended: let `host` be the host part of the destination when
`net.SplitHostPort` accepts it, and the whole destination, unchanged, when it
does not. Then the outcome of `Allow` is the one that the answer of the
resolver for `host` determines: a failure gives false with no address; a list
without an address of a 4-byte form gives false with no address; a list with
such an address gives the answer of the IPv4 index for the first of them. So
`host` is what the resolver is asked, and a rejected destination is handled
like an accepted one, with no early return. Consequently, for a host without
colon and bracket, the destination `host:port` has the outcome of the
destination `host`, for every port text without colon and bracket, in
particular for every port number in decimal. -/
theorem Allow_host {Ctx : Type} (s : shortcut Ctx) (ctx : Ctx) (addr host : String)
    (hhost : (∃ port, SplitHostPort addr = .ok (host, port)) ∨
      ((∃ e, SplitHostPort addr = .error e) ∧ host = addr)) :
    (∀ e, s.resolver.LookupIPAddr ctx host = .error e →
      s.Allow ctx addr = ⟨[.lookup host], .ok (false, .nil)⟩) ∧
    (∀ addrs, s.resolver.LookupIPAddr ctx host = .ok addrs →
      (∀ x ∈ addrs, x.IP.To4 = .nil) →
      s.Allow ctx addr = ⟨[.lookup host], .ok (false, .nil)⟩) ∧
    (∀ l pre a post, s.v4list = some l →
      s.resolver.LookupIPAddr ctx host = .ok (pre ++ a :: post) →
      (∀ x ∈ pre, x.IP.To4 = .nil) → a.IP.To4 ≠ .nil →
      s.Allow ctx addr = ⟨[.lookup host, .queryV4 a.IP.To4],
        .ok (l.Contains a.IP.To4, a.IP.To4)⟩) ∧
    (∀ h p, isBare h → isBare p → s.Allow ctx (h ++ ":" ++ p) = s.Allow ctx h) ∧
    (∀ h (n : Nat), isBare h → s.Allow ctx (h ++ ":" ++ toString n) = s.Allow ctx h) := by
  have hh : hostOf addr = host := by
    rcases hhost with ⟨port, hp⟩ | ⟨⟨e, he⟩, rfl⟩
    · simp [hostOf, hp]
    · simp [hostOf, he]
  refine ⟨?_, ?_, ?_, ?_, ?_⟩
  · intro e he
    rw [← hh] at he ⊢
    exact Allow_error s ctx addr e he
  · intro addrs hres hn
    rw [← hh] at hres ⊢
    rw [Allow_ok s ctx addr addrs hres, allowLoop_none s addrs hn]
  · intro l pre a post hl hres hp ha
    rw [← hh] at hres ⊢
    rw [Allow_ok s ctx addr _ hres, allowLoop_skip s pre (a :: post) hp,
      allowLoop_cons_v4 s a post ha, hl]
    rfl
  · intro h p hb hp
    apply Allow_congr_host
    rw [hostOf_bare_port h p hb hp, hostOf_bare h hb]
  · intro h n hb
    apply Allow_congr_host
    rw [hostOf_bare_port h (toString n) hb (isBare_toString n), hostOf_bare h hb]

/-- C6, amended, at a destination with a port, at the same host without a port
(rejected by `net.SplitHostPort` and resolved all the same), at a bracketed
destination, at a host that the resolver does not know, and at the pairs of
`localhost:http` and `localhost:8080` with `localhost`. -/
theorem Allow_host_witness :
    SplitHostPort "93.184.216.34:443" = .ok ("93.184.216.34", "443") ∧
    (New exampleResolver ["93.184.216.0/24"] []).Allow () "93.184.216.34:443"
      = ⟨[.lookup "93.184.216.34", .queryV4 (.bytes [93, 184, 216, 34])],
          .ok (true, .bytes [93, 184, 216, 34])⟩ ∧
    SplitHostPort "93.184.216.34" = .error .missingPort ∧
    (New exampleResolver ["93.184.216.0/24"] []).Allow () "93.184.216.34"
      = ⟨[.lookup "93.184.216.34", .queryV4 (.bytes [93, 184, 216, 34])],
          .ok (true, .bytes [93, 184, 216, 34])⟩ ∧
    SplitHostPort "[::ffff:10.1.2.3]:80" = .ok ("::ffff:10.1.2.3", "80") ∧
    (New mappedResolver ["10.0.0.0/8"] []).Allow () "[::ffff:10.1.2.3]:80"
      = ⟨[.lookup "::ffff:10.1.2.3", .queryV4 (.bytes [10, 1, 2, 3])],
          .ok (true, .bytes [10, 1, 2, 3])⟩ ∧
    (New exampleResolver ["0.0.0.0/0"] []).Allow () "unknown.example:443"
      = ⟨[.lookup "unknown.example"], .ok (false, .nil)⟩ ∧
    (New exampleResolver [] []).Allow () ("localhost" ++ ":" ++ "http")
      = (New exampleResolver [] []).Allow () "localhost" ∧
    (New exampleResolver [] []).Allow () ("localhost" ++ ":" ++ toString 8080)
      = (New exampleResolver [] []).Allow () "localhost" :=
  ⟨rfl,
   (Allow_host (New exampleResolver ["93.184.216.0/24"] []) () "93.184.216.34:443"
      "93.184.216.34" (Or.inl ⟨"443", rfl⟩)).2.2.1
      (newSortList ["93.184.216.0/24"]) [] ⟨.bytes [93, 184, 216, 34], ""⟩ [] rfl rfl
      (by simp) (by decide),
   rfl,
   (Allow_host (New exampleResolver ["93.184.216.0/24"] []) () "93.184.216.34"
      "93.184.216.34" (Or.inr ⟨⟨.missingPort, rfl⟩, rfl⟩)).2.2.1
      (newSortList ["93.184.216.0/24"]) [] ⟨.bytes [93, 184, 216, 34], ""⟩ [] rfl rfl
      (by simp) (by decide),
   rfl,
   (Allow_host (New mappedResolver ["10.0.0.0/8"] []) () "[::ffff:10.1.2.3]:80"
      "::ffff:10.1.2.3" (Or.inl ⟨"80", rfl⟩)).2.2.1
      (newSortList ["10.0.0.0/8"]) []
      ⟨.bytes [0, 0, 0, 0, 0, 0, 0, 0, 0, 0, 0xff, 0xff, 10, 1, 2, 3], ""⟩ [] rfl rfl
      (by simp) (by decide),
   (Allow_host (New exampleResolver ["0.0.0.0/0"] []) () "unknown.example:443"
      "unknown.example" (Or.inl ⟨"443", rfl⟩)).1 "no such host" rfl,
   (Allow_host (New exampleResolver [] []) () "" "" (Or.inr ⟨⟨.missingPort, rfl⟩, rfl⟩)).2.2.2.1
      "localhost" "http" (by decide) (by decide),
   (Allow_host (New exampleResolver [] []) () "" "" (Or.inr ⟨⟨.missingPort, rfl⟩, rfl⟩)).2.2.2.2
      "localhost" 8080 (by decide)⟩

/-! ## The subnet index: the query agrees with the linear scan -/

theorem maskTo_le (bits ones v : Nat) : maskTo bits ones v ≤ v :=
  Nat.div_mul_le_self v (2 ^ (bits - ones))

/-- A block whose base address is above the address does not contain it. -/
theorem cidrBlock.Contains_eq_false_of_lt (b : cidrBlock) (ip : IP)
    (h : beValue ip.data < b.base) : b.Contains ip = false := by
  have hle := maskTo_le b.bits b.ones (beValue ip.data)
  have hne : maskTo b.bits b.ones (beValue ip.data) ≠ b.base := by omega
  simp [cidrBlock.Contains, hne]

theorem mem_insertBlock (b x : cidrBlock) (l : List cidrBlock) :
    x ∈ insertBlock b l ↔ x = b ∨ x ∈ l := by
  induction l with
  | nil => simp [insertBlock]
  | cons y ys ih =>
    unfold insertBlock
    split
    · simp
    · simp only [List.mem_cons, ih]
      tauto

theorem insertBlock_perm (b : cidrBlock) (l : List cidrBlock) :
    (insertBlock b l).Perm (b :: l) := by
  induction l with
  | nil => exact List.Perm.refl _
  | cons y ys ih =>
    unfold insertBlock
    split
    · exact List.Perm.refl _
    · exact (List.Perm.cons y ih).trans (List.Perm.swap b y ys)

theorem sortBlocks_perm (l : List cidrBlock) : (sortBlocks l).Perm l := by
  induction l with
  | nil => exact List.Perm.refl _
  | cons b bs ih => exact (insertBlock_perm b (sortBlocks bs)).trans (List.Perm.cons b ih)

theorem insertBlock_sorted (b : cidrBlock) (l : List cidrBlock)
    (hl : l.Pairwise (fun x y => x.base ≤ y.base)) :
    (insertBlock b l).Pairwise (fun x y => x.base ≤ y.base) := by
  induction l with
  | nil => simp [insertBlock]
  | cons y ys ih =>
    have hy := List.pairwise_cons.mp hl
    unfold insertBlock
    split
    · rename_i hby
      refine List.pairwise_cons.mpr ⟨?_, hl⟩
      intro z hz
      rcases List.mem_cons.mp hz with rfl | hz
      · exact hby
      · exact Nat.le_trans hby (hy.1 z hz)
    · rename_i hby
      refine List.pairwise_cons.mpr ⟨?_, ih hy.2⟩
      intro z hz
      rcases (mem_insertBlock b z ys).mp hz with rfl | hz
      · omega
      · exact hy.1 z hz

/-- The stored list is sorted ascending by base address. -/
theorem sortBlocks_sorted (l : List cidrBlock) :
    (sortBlocks l).Pairwise (fun x y => x.base ≤ y.base) := by
  induction l with
  | nil => exact List.Pairwise.nil
  | cons b bs ih => exact insertBlock_sorted b (sortBlocks bs) ih

/-- The binary search stops within its fuel at a position from which on the
predicate holds, when the predicate is monotone and holds from `j` on. -/
theorem searchLoop_spec (f : Nat → Bool) (hmono : ∀ a b, a ≤ b → f a = true → f b = true)
    (fuel : Nat) : ∀ i j, i ≤ j → j - i ≤ fuel → (∀ k, j ≤ k → f k = true) →
      i ≤ searchLoop f fuel i j ∧ searchLoop f fuel i j ≤ j ∧
      ∀ k, searchLoop f fuel i j ≤ k → f k = true := by
  induction fuel with
  | zero =>
    intro i j hij hfuel hj
    have : i = j := by omega
    subst this
    simpa [searchLoop] using hj
  | succ n ih =>
    intro i j hij hfuel hj
    unfold searchLoop
    by_cases hlt : i < j
    · rw [if_pos hlt]
      have hh1 : i ≤ (i + j) / 2 := by omega
      have hh2 : (i + j) / 2 < j := by omega
      by_cases hf : f ((i + j) / 2) = true
      · simp only [hf, Bool.not_true, Bool.false_eq_true, if_false]
        have := ih i ((i + j) / 2) hh1 (by omega)
          (fun k hk => hmono _ k hk hf)
        exact ⟨this.1, by omega, this.2.2⟩
      · have hf2 : f ((i + j) / 2) = false := by simpa using hf
        simp only [hf2, Bool.not_false, if_true]
        have := ih ((i + j) / 2 + 1) j (by omega) (by omega) hj
        exact ⟨by omega, this.2.1, this.2.2⟩
    · rw [if_neg hlt]
      have : i = j := by omega
      subst this
      exact ⟨Nat.le_refl _, Nat.le_refl _, hj⟩

/-- The binary search does not depend on its fuel once the fuel covers the
range: the bound in `Search` is never reached. -/
theorem searchLoop_fuel (f : Nat → Bool) (f1 : Nat) : ∀ (f2 i j : Nat),
    j - i ≤ f1 → j - i ≤ f2 → searchLoop f f1 i j = searchLoop f f2 i j := by
  induction f1 with
  | zero =>
    intro f2 i j h1 _
    have hij : ¬ i < j := by omega
    cases f2 with
    | zero => rfl
    | succ m => simp [searchLoop, hij]
  | succ n ih =>
    intro f2 i j h1 h2
    cases f2 with
    | zero =>
      have hij : ¬ i < j := by omega
      simp [searchLoop, hij]
    | succ m =>
      unfold searchLoop
      by_cases hlt : i < j
      · simp only [hlt, if_true]
        by_cases hf : f ((i + j) / 2) = true
        · simp only [hf, Bool.not_true, Bool.false_eq_true, if_false]
          exact ih m i ((i + j) / 2) (by omega) (by omega)
        · have hf2 : f ((i + j) / 2) = false := by simpa using hf
          simp only [hf2, Bool.not_false, if_true]
          exact ih m ((i + j) / 2 + 1) j (by omega) (by omega)
      · simp only [hlt, if_false]

/-- Below the position found by the binary search the predicate fails, when it
is monotone and fails below `i`: the position is the smallest at which the
predicate holds. -/
theorem searchLoop_below (f : Nat → Bool) (hmono : ∀ a b, a ≤ b → f a = true → f b = true)
    (fuel : Nat) : ∀ i j, (∀ k, k < i → f k = false) →
      ∀ k, k < searchLoop f fuel i j → f k = false := by
  induction fuel with
  | zero =>
    intro i j hi k hk
    exact hi k (by simpa [searchLoop] using hk)
  | succ n ih =>
    intro i j hi k hk
    unfold searchLoop at hk
    by_cases hlt : i < j
    · rw [if_pos hlt] at hk
      by_cases hf : f ((i + j) / 2) = true
      · simp only [hf, Bool.not_true, Bool.false_eq_true, if_false] at hk
        exact ih i ((i + j) / 2) hi k hk
      · have hf2 : f ((i + j) / 2) = false := by simpa using hf
        simp only [hf2, Bool.not_false, if_true] at hk
        refine ih ((i + j) / 2 + 1) j ?_ k hk
        intro m hm
        cases hfm : f m with
        | false => rfl
        | true => exact absurd (hmono m ((i + j) / 2) (by omega) hfm) hf
    · rw [if_neg hlt] at hk
      exact hi k hk

theorem aboveAt_mono (sorted : List cidrBlock) (v : Nat)
    (hs : sorted.Pairwise (fun x y => x.base ≤ y.base)) :
    ∀ a b, a ≤ b → aboveAt sorted v a = true → aboveAt sorted v b = true := by
  intro a b hab ha
  unfold aboveAt at ha ⊢
  by_cases hb : b < sorted.length
  · have ha2 : a < sorted.length := by omega
    rw [List.getElem?_eq_getElem hb]
    rw [List.getElem?_eq_getElem ha2] at ha
    simp only [decide_eq_true_eq] at ha ⊢
    rcases Nat.lt_or_ge a b with hlt | hge
    · have := List.pairwise_iff_getElem.mp hs a b ha2 hb hlt
      omega
    · have : a = b := by omega
      subst this
      exact ha
  · rw [List.getElem?_eq_none (by omega)]

/-- The blocks from the position found by the binary search on do not contain
the address. -/
theorem drop_Search_any (sorted : List cidrBlock) (ip : IP)
    (hs : sorted.Pairwise (fun x y => x.base ≤ y.base)) :
    (sorted.drop (Search sorted.length (aboveAt sorted (beValue ip.data)))).any
      (fun b => b.Contains ip) = false := by
  have hspec := searchLoop_spec (aboveAt sorted (beValue ip.data))
    (aboveAt_mono sorted (beValue ip.data) hs) sorted.length 0 sorted.length
    (Nat.zero_le _) (by omega)
    (fun k hk => by unfold aboveAt; rw [List.getElem?_eq_none hk])
  have key : ∀ k, Search sorted.length (aboveAt sorted (beValue ip.data)) ≤ k →
      aboveAt sorted (beValue ip.data) k = true := hspec.2.2
  generalize Search sorted.length (aboveAt sorted (beValue ip.data)) = idx at key ⊢
  rw [List.any_eq_false]
  intro b hb
  obtain ⟨m, hm⟩ := List.mem_iff_getElem?.mp hb
  rw [List.getElem?_drop] at hm
  have habove := key (idx + m) (by omega)
  unfold aboveAt at habove
  rw [hm] at habove
  simp only [decide_eq_true_eq] at habove
  rw [cidrBlock.Contains_eq_false_of_lt b ip habove]
  simp

/-- On a sorted list of blocks the query agrees with the linear scan. -/
theorem Contains_eq_linearScan_of_sorted (l : sortList) (ip : IP)
    (hs : l.sorted.Pairwise (fun x y => x.base ≤ y.base)) :
    l.Contains ip = l.linearScan ip := by
  have hdrop := drop_Search_any l.sorted ip hs
  have hsplit : l.linearScan ip =
      ((l.sorted.take (Search l.sorted.length (aboveAt l.sorted (beValue ip.data)))).any
          (fun b => b.Contains ip) ||
        (l.sorted.drop (Search l.sorted.length (aboveAt l.sorted (beValue ip.data)))).any
          (fun b => b.Contains ip)) := by
    unfold sortList.linearScan
    rw [← List.any_append, List.take_append_drop]
  rw [hsplit, hdrop, Bool.or_false]
  rfl

/-- The blocks stored by the index are the blocks of the well-formed
entries. -/
theorem mem_newSortList (subnets : List String) (b : cidrBlock) :
    b ∈ (newSortList subnets).sorted ↔ ∃ s ∈ subnets, ParseCIDR s = some b := by
  unfold newSortList
  rw [(sortBlocks_perm _).mem_iff, List.mem_filterMap]

/-- C7: for every list of CIDR entries whose blocks are of one family and
every address of that family, the index built by `newSortList` contains the
address if and only if some stored block has as base address the address
masked to the length of the network part of that block; the query agrees with
the linear scan over all stored blocks, which are the blocks of the entries of
the list, with their repetitions. -/
theorem Contains_iff_some_block (subnets : List String) (w : Nat) (bs : List Byte)
    (hfam : ∀ b ∈ subnets.filterMap ParseCIDR, b.bits = w)
    (hip : 8 * bs.length = w) :
    ((newSortList subnets).Contains (.bytes bs) = true ↔
      ∃ b ∈ (newSortList subnets).sorted, maskTo b.bits b.ones (beValue bs) = b.base) ∧
    (newSortList subnets).Contains (.bytes bs) = (newSortList subnets).linearScan (.bytes bs) ∧
    (newSortList subnets).sorted.Perm (subnets.filterMap ParseCIDR) := by
  have heq := Contains_eq_linearScan_of_sorted (newSortList subnets) (.bytes bs)
    (sortBlocks_sorted _)
  refine ⟨?_, heq, sortBlocks_perm _⟩
  rw [heq, sortList.linearScan, List.any_eq_true]
  constructor
  · rintro ⟨b, hb, hc⟩
    refine ⟨b, hb, ?_⟩
    simp only [cidrBlock.Contains, Bool.and_eq_true, decide_eq_true_eq] at hc
    exact hc.2
  · rintro ⟨b, hb, hc⟩
    refine ⟨b, hb, ?_⟩
    have hbits : b.bits = w := hfam b ((sortBlocks_perm _).mem_iff.mp hb)
    simp only [cidrBlock.Contains, Bool.and_eq_true, decide_eq_true_eq]
    exact ⟨by simp only [IP.len, IP.data]; omega, hc⟩

/-- C7, at the block 10.0.0.0/8: the addresses 10.0.0.0 and 10.255.255.255 are
contained, the address 9.255.255.255 is not; and at a list with nested and
repeated blocks, where the address 10.2.0.1 lies in the block 10.0.0.0/8 only,
which does not sort next to it. -/
theorem Contains_iff_some_block_witness :
    (newSortList ["10.0.0.0/8"]).Contains (.bytes [10, 0, 0, 0]) = true ∧
    (newSortList ["10.0.0.0/8"]).Contains (.bytes [10, 255, 255, 255]) = true ∧
    (newSortList ["10.0.0.0/8"]).Contains (.bytes [9, 255, 255, 255]) = false ∧
    (newSortList ["10.1.0.0/16", "10.0.0.0/24", "10.0.0.0/8", "10.0.0.0/24"]).Contains
      (.bytes [10, 2, 0, 1]) = true :=
  ⟨(Contains_iff_some_block ["10.0.0.0/8"] 32 [10, 0, 0, 0] (by decide) (by decide)).1.mpr
      (by decide),
   (Contains_iff_some_block ["10.0.0.0/8"] 32 [10, 255, 255, 255] (by decide) (by decide)).1.mpr
      (by decide),
   Bool.eq_false_iff.mpr (fun h =>
      absurd ((Contains_iff_some_block ["10.0.0.0/8"] 32 [9, 255, 255, 255]
        (by decide) (by decide)).1.mp h) (by decide)),
   (Contains_iff_some_block ["10.1.0.0/16", "10.0.0.0/24", "10.0.0.0/8", "10.0.0.0/24"] 32
      [10, 2, 0, 1] (by decide) (by decide)).1.mpr (by decide)⟩

/-! ## Malformed entries -/

/-- Removing entries that do not parse does not change the parsed blocks. -/
theorem filterMap_ParseCIDR_filter (keep : String → Bool) (l : List String)
    (h : ∀ s ∈ l, keep s = false → ParseCIDR s = none) :
    (l.filter keep).filterMap ParseCIDR = l.filterMap ParseCIDR := by
  induction l with
  | nil => rfl
  | cons x xs ih =>
    have hxs : ∀ s ∈ xs, keep s = false → ParseCIDR s = none :=
      fun s hs => h s (List.mem_cons_of_mem x hs)
    cases hk : keep x with
    | true => simp [List.filter_cons, hk, List.filterMap_cons, ih hxs]
    | false =>
      have hx : ParseCIDR x = none := h x (List.mem_cons_self x xs) hk
      simp [List.filter_cons, hk, List.filterMap_cons, hx, ih hxs]

theorem newSortList_filter (keep : String → Bool) (l : List String)
    (h : ∀ s ∈ l, keep s = false → ParseCIDR s = none) :
    newSortList (l.filter keep) = newSortList l := by
  unfold newSortList
  rw [filterMap_ParseCIDR_filter keep l h]

/-- C9: construction with `New` succeeds for every two lists of entries, and
malformed entries are dropped without effect on the rest: the shortcut built
from the lists from which some or all malformed entries are removed is the
shortcut built from the full lists, and answers every call of `Allow` in the
same way. -/
theorem New_drops_malformed {Ctx : Type} (r : Resolver Ctx) (v4 v6 : List String)
    (keep4 keep6 : String → Bool)
    (h4 : ∀ s ∈ v4, keep4 s = false → ParseCIDR s = none)
    (h6 : ∀ s ∈ v6, keep6 s = false → ParseCIDR s = none) :
    ((New r v4 v6).v4list.isSome = true ∧ (New r v4 v6).v6list.isSome = true) ∧
    New r (v4.filter keep4) (v6.filter keep6) = New r v4 v6 ∧
    New r (v4.filter wellFormed) (v6.filter wellFormed) = New r v4 v6 ∧
    ∀ ctx addr, (New r (v4.filter keep4) (v6.filter keep6)).Allow ctx addr
      = (New r v4 v6).Allow ctx addr := by
  have e1 : New r (v4.filter keep4) (v6.filter keep6) = New r v4 v6 := by
    unfold New newSortListPtr
    rw [newSortList_filter keep4 v4 h4, newSortList_filter keep6 v6 h6]
  have hw : ∀ l : List String, ∀ s ∈ l, wellFormed s = false → ParseCIDR s = none := by
    intro l s _ hs
    simpa [wellFormed] using hs
  have e2 : New r (v4.filter wellFormed) (v6.filter wellFormed) = New r v4 v6 := by
    unfold New newSortListPtr
    rw [newSortList_filter wellFormed v4 (hw v4), newSortList_filter wellFormed v6 (hw v6)]
  exact ⟨⟨rfl, rfl⟩, e1, e2, fun ctx addr => by rw [e1]⟩

/-- C9, at the example of the specification: the list with the entry
`not-a-cidr` builds the shortcut of the list without it. -/
theorem New_drops_malformed_witness :
    ParseCIDR "not-a-cidr" = none ∧
    New exampleResolver ["10.0.0.0/8", "192.168.0.0/16"] []
      = New exampleResolver ["10.0.0.0/8", "not-a-cidr", "192.168.0.0/16"] [] ∧
    (New exampleResolver ["10.0.0.0/8", "192.168.0.0/16"] []).Allow () "mixed.example:80"
      = (New exampleResolver ["10.0.0.0/8", "not-a-cidr", "192.168.0.0/16"] []).Allow ()
          "mixed.example:80" :=
  have h := New_drops_malformed exampleResolver
    ["10.0.0.0/8", "not-a-cidr", "192.168.0.0/16"] []
    (fun s => s != "not-a-cidr") (fun _ => true) (by decide) (by simp)
  ⟨by decide, h.2.1, h.2.2.2 () "mixed.example:80"⟩

/-! ## Reading lines -/

theorem splitOn_ne_nil (sep : Char) (cs : List Char) : splitOn sep cs ≠ [] := by
  cases cs with
  | nil => simp [splitOn]
  | cons c cs =>
    unfold splitOn
    split
    · simp
    · split <;> simp

theorem splitOn_of_indexByte_none (sep : Char) (cs : List Char)
    (h : indexByte cs sep = none) : splitOn sep cs = [cs] := by
  induction cs with
  | nil => rfl
  | cons c cs ih =>
    unfold indexByte at h
    by_cases hc : c = sep
    · simp [hc] at h
    · simp only [hc, if_false, Option.map_eq_none'] at h
      simp [splitOn, hc, ih h]

theorem splitOn_of_indexByte_some (sep : Char) (cs : List Char) (i : Nat)
    (h : indexByte cs sep = some i) :
    splitOn sep cs = cs.take i :: splitOn sep (cs.drop (i + 1)) := by
  induction cs generalizing i with
  | nil => simp [indexByte] at h
  | cons c cs ih =>
    unfold indexByte at h
    by_cases hc : c = sep
    · simp only [hc, if_true, Option.some.injEq] at h
      subst h
      simp [splitOn, hc]
    · simp only [hc, if_false, Option.map_eq_some'] at h
      obtain ⟨k, hk, rfl⟩ := h
      simp [splitOn, hc, ih k hk]

theorem indexByte_some_ne_nil (sep : Char) (cs : List Char) (i : Nat)
    (h : indexByte cs sep = some i) : cs ≠ [] := by
  intro hn
  subst hn
  simp [indexByte] at h

theorem textLines_of_indexByte_none (cs : List Char) (h : indexByte cs '\n' = none) :
    textLines cs = if cs = [] then [] else [cs] := by
  unfold textLines
  rw [splitOn_of_indexByte_none _ cs h]
  by_cases hc : cs = []
  · simp [hc]
  · simp [hc]

theorem textLines_of_indexByte_some (cs : List Char) (i : Nat)
    (h : indexByte cs '\n' = some i) :
    textLines cs = cs.take i :: textLines (cs.drop (i + 1)) := by
  unfold textLines
  rw [splitOn_of_indexByte_some _ cs i h]
  have hne := splitOn_ne_nil '\n' (cs.drop (i + 1))
  obtain ⟨f, fs, hf⟩ := List.exists_cons_of_ne_nil hne
  rw [hf]
  simp only [List.getLast?_cons_cons, List.dropLast_cons₂]
  split <;> rfl

theorem readLoop_append (fuel : Nat) : ∀ (s : Scanner) (lines : List String),
    readLoop fuel s lines = lines ++ readLoop fuel s [] := by
  induction fuel with
  | zero => intro s lines; simp [readLoop]
  | succ n ih =>
    intro s lines
    unfold readLoop
    cases s.Scan with
    | none => simp
    | some p =>
      obtain ⟨text, s2⟩ := p
      simp only
      rw [ih s2 (lines ++ [text]), ih s2 ([] ++ [text])]
      simp

theorem readLoop_nil (fuel : Nat) : readLoop fuel ⟨[]⟩ [] = [] := by
  cases fuel with
  | zero => rfl
  | succ n => simp [readLoop, Scanner.Scan, indexByte]

/-- With more iterations than characters, the loop of `readLines` yields all
the lines of a text whose lines fit in the buffer of the scanner. -/
theorem readLoop_eq_textLines (fuel : Nat) : ∀ cs : List Char, cs.length < fuel →
    (∀ l ∈ textLines cs, utf8Len l < MaxScanTokenSize) →
    readLoop fuel ⟨cs⟩ [] = (textLines cs).map (fun l => String.mk (dropCR l)) := by
  induction fuel with
  | zero => intro cs h; omega
  | succ n ih =>
    intro cs hlen hfit
    unfold readLoop Scanner.Scan
    cases hidx : indexByte cs '\n' with
    | some i =>
      have htl := textLines_of_indexByte_some cs i hidx
      have hne := indexByte_some_ne_nil _ cs i hidx
      have hpos : 0 < cs.length := List.length_pos.mpr hne
      rw [htl] at hfit
      have hfit1 : utf8Len (cs.take i) < MaxScanTokenSize := hfit _ (List.mem_cons_self _ _)
      have hfit2 : ∀ l ∈ textLines (cs.drop (i + 1)), utf8Len l < MaxScanTokenSize :=
        fun l hl => hfit l (List.mem_cons_of_mem _ hl)
      have hrest : (cs.drop (i + 1)).length < n := by
        rw [List.length_drop]; omega
      simp only [hfit1, if_true]
      rw [readLoop_append, ih (cs.drop (i + 1)) hrest hfit2, htl]
      simp
    | none =>
      have htl := textLines_of_indexByte_none cs hidx
      by_cases hc : cs = []
      · subst hc
        rfl
      · rw [htl, if_neg hc] at hfit
        have hfit1 : utf8Len cs < MaxScanTokenSize := hfit _ (List.mem_singleton_self _)
        simp only [hc, if_false, hfit1, if_true]
        rw [readLoop_append, readLoop_nil, htl, if_neg hc]
        simp

/-- The loop of `readLines` does not depend on its fuel once there are more
iterations than characters: the bound in `readLines` is never reached. -/
theorem readLoop_fuel (f1 : Nat) : ∀ (f2 : Nat) (cs : List Char) (lines : List String),
    cs.length < f1 → cs.length < f2 → readLoop f1 ⟨cs⟩ lines = readLoop f2 ⟨cs⟩ lines := by
  induction f1 with
  | zero => intro f2 cs lines h; omega
  | succ n ih =>
    intro f2 cs lines h1 h2
    cases f2 with
    | zero => omega
    | succ m =>
      unfold readLoop Scanner.Scan
      cases hidx : indexByte cs '\n' with
      | some i =>
        have hne := indexByte_some_ne_nil _ cs i hidx
        have hpos : 0 < cs.length := List.length_pos.mpr hne
        have hr1 : (cs.drop (i + 1)).length < n := by rw [List.length_drop]; omega
        have hr2 : (cs.drop (i + 1)).length < m := by rw [List.length_drop]; omega
        by_cases hfit : utf8Len (cs.take i) < MaxScanTokenSize
        · simp only [hfit, if_true]
          exact ih m _ _ hr1 hr2
        · simp only [if_neg hfit]
      | none =>
        by_cases hc : cs = []
        · simp [hc]
        · by_cases hfit : utf8Len cs < MaxScanTokenSize
          · simp only [hc, if_false, hfit, if_true]
            rw [readLoop_append n, readLoop_append m, readLoop_nil, readLoop_nil]
          · simp only [if_neg hc, if_neg hfit]

theorem readLines_eq_allLines (r : String)
    (h : ∀ l ∈ textLines r.data, utf8Len l < MaxScanTokenSize) :
    readLines r = allLines r := by
  unfold readLines allLines
  have hlen : r.data.length < r.length + 1 := by
    have : r.length = r.data.length := rfl
    omega
  exact readLoop_eq_textLines (r.length + 1) r.data hlen h

theorem ParseCIDR_empty : ParseCIDR "" = none := by decide

theorem newSortList_nonBlank (l : List String) :
    newSortList (l.filter (fun s => s ≠ "")) = newSortList l := by
  apply newSortList_filter
  intro s _ hs
  have : s = "" := by simpa using hs
  rw [this, ParseCIDR_empty]

/-- C8, as stated, fails: for the stream of the three lines `10.0.0.0/8`,
blank, `192.168.0.0/16`, the list returned by `readLines` has three entries,
the second of which is the empty string of the blank line; it is not the list
of the non-empty lines. -/
theorem readLines_keeps_blank_line :
    readLines "10.0.0.0/8\n\n192.168.0.0/16\n" = ["10.0.0.0/8", "", "192.168.0.0/16"] ∧
    nonBlankLines "10.0.0.0/8\n\n192.168.0.0/16\n" = ["10.0.0.0/8", "192.168.0.0/16"] ∧
    "" ∈ readLines "10.0.0.0/8\n\n192.168.0.0/16\n" ∧
    readLines "10.0.0.0/8\n\n192.168.0.0/16\n" ≠ nonBlankLines "10.0.0.0/8\n\n192.168.0.0/16\n" := by
  decide

/-- C8, amended: for every pair of streams whose lines fit in the buffer of the
scanner, `NewFromReader` builds `New (readLines v4) (readLines v6)`, where
`readLines` of a stream is the list of all its lines in input order, one entry
per line with the line terminator removed, a blank line giving an empty entry.
The empty entries are malformed and stored in no index, so that the shortcut
is the one built from the non-empty lines. -/
theorem NewFromReader_eq {Ctx : Type} (r : Resolver Ctx) (v4 v6 : String)
    (h4 : ∀ l ∈ textLines v4.data, utf8Len l < MaxScanTokenSize)
    (h6 : ∀ l ∈ textLines v6.data, utf8Len l < MaxScanTokenSize) :
    NewFromReader r v4 v6 = New r (readLines v4) (readLines v6) ∧
    readLines v4 = allLines v4 ∧ readLines v6 = allLines v6 ∧
    NewFromReader r v4 v6 = New r (nonBlankLines v4) (nonBlankLines v6) := by
  have e4 := readLines_eq_allLines v4 h4
  have e6 := readLines_eq_allLines v6 h6
  refine ⟨rfl, e4, e6, ?_⟩
  unfold NewFromReader New newSortListPtr nonBlankLines
  rw [e4, e6, newSortList_nonBlank (allLines v4), newSortList_nonBlank (allLines v6)]

/-- C8, amended, at a stream with a blank line and at a stream with carriage
returns and without a final line feed. -/
theorem NewFromReader_eq_witness :
    readLines "10.0.0.0/8\n\n192.168.0.0/16\n" = allLines "10.0.0.0/8\n\n192.168.0.0/16\n" ∧
    readLines "2001:db8::/32\r\nfe80::/10" = allLines "2001:db8::/32\r\nfe80::/10" ∧
    NewFromReader exampleResolver "10.0.0.0/8\n\n192.168.0.0/16\n" "2001:db8::/32\r\nfe80::/10"
      = New exampleResolver ["10.0.0.0/8", "192.168.0.0/16"] ["2001:db8::/32", "fe80::/10"] :=
  have h := NewFromReader_eq exampleResolver "10.0.0.0/8\n\n192.168.0.0/16\n"
    "2001:db8::/32\r\nfe80::/10" (by decide) (by decide)
  ⟨h.2.1, h.2.2.1, h.2.2.2⟩

/-! ## No step of `Allow` aborts -/

theorem indexAt_of_getElem? {α : Type} (s : List α) (i : Nat) (x : α)
    (h : s[i]? = some x) : indexAt s i = .ok x := by
  simp [indexAt, h]

theorem sliceAt_of_le {α : Type} (s : List α) (lo hi : Nat) (h1 : lo ≤ hi)
    (h2 : hi ≤ s.length) : sliceAt s lo hi = .ok ((s.take hi).drop lo) := by
  simp [sliceAt, h1, h2]

theorem sliceAt_to_end {α : Type} (s : List α) (lo : Nat) (h : lo ≤ s.length) :
    sliceAt s lo s.length = .ok (s.drop lo) := by
  rw [sliceAt_of_le s lo s.length h (Nat.le_refl _), List.take_length]

theorem sliceAt_from_start {α : Type} (s : List α) (hi : Nat) (h : hi ≤ s.length) :
    sliceAt s 0 hi = .ok (s.take hi) := by
  rw [sliceAt_of_le s 0 hi (Nat.zero_le _) h, List.drop_zero]

/-- The checked conversion `To4` never aborts and yields what `To4` yields. -/
theorem Checked.To4_eq (ip : IP) : Checked.To4 ip = .ok ip.To4 := by
  unfold Checked.To4 IP.To4
  by_cases h4 : ip.len = IPv4len
  · simp [h4]
  · by_cases h6 : ip.len = IPv6len
    · have hlen : ip.data.length = 16 := h6
      have e10 : ip.data[10]? = some (ip.data[10]) := List.getElem?_eq_getElem (by omega)
      have e11 : ip.data[11]? = some (ip.data[11]) := List.getElem?_eq_getElem (by omega)
      rw [if_neg h4, if_neg h4, if_pos h6, sliceAt_from_start _ 10 (by omega),
        indexAt_of_getElem? _ 10 _ e10, indexAt_of_getElem? _ 11 _ e11,
        sliceAt_of_le _ 12 16 (by omega) (by omega)]
      have htail : (ip.data.take 16).drop 12 = (ip.data.drop 12).take 4 := by
        rw [List.drop_take]
      simp only [Except.bind, htail, e10, e11, Option.some.injEq, h6, true_and]
      by_cases hz : isZeros (List.take 10 ip.data) = true
      · by_cases h10 : ip.data[10] = 0xff
        · by_cases h11 : ip.data[11] = 0xff
          · simp [hz, h10, h11]
          · simp [hz, h10, h11]
        · simp [hz, h10]
      · simp [hz]
    · simp [h4, h6]

/-- The checked conversion `To16` never aborts and yields what `To16`
yields. -/
theorem Checked.To16_eq (ip : IP) : Checked.To16 ip = .ok ip.To16 := by
  unfold Checked.To16 IP.To16
  by_cases h4 : ip.len = IPv4len
  · have hlen : ip.data.length = 4 := h4
    rw [if_pos h4, if_pos h4]
    rcases hd : ip.data with _ | ⟨a, _ | ⟨b, _ | ⟨c, _ | ⟨d, _ | ⟨e, t⟩⟩⟩⟩⟩
    all_goals rw [hd] at hlen
    all_goals simp at hlen
    simp [indexAt, Except.bind]
  · by_cases h6 : ip.len = IPv6len
    · rw [if_neg h4, if_neg h4, if_pos h6, if_pos h6]
    · rw [if_neg h4, if_neg h4, if_neg h6, if_neg h6]

theorem indexByte_some_lt (s : List Char) (c : Char) : ∀ i, indexByte s c = some i →
    i < s.length ∧ s[i]? = some c := by
  induction s with
  | nil => intro i h; simp [indexByte] at h
  | cons x xs ih =>
    intro i h
    unfold indexByte at h
    by_cases hx : x = c
    · simp only [hx, if_true, Option.some.injEq] at h
      subst h
      simp [hx]
    · simp only [hx, if_false, Option.map_eq_some'] at h
      obtain ⟨k, hk, rfl⟩ := h
      have := ih k hk
      exact ⟨by simp only [List.length_cons]; omega,
        by rw [List.getElem?_cons_succ]; exact this.2⟩

theorem lastIndexByte_some_lt (s : List Char) (c : Char) : ∀ i, lastIndexByte s c = some i →
    i < s.length := by
  induction s with
  | nil => intro i h; simp [lastIndexByte] at h
  | cons x xs ih =>
    intro i h
    unfold lastIndexByte at h
    cases hl : lastIndexByte xs c with
    | some k =>
      rw [hl] at h
      simp only [Option.some.injEq] at h
      have := ih k hl
      simp only [List.length_cons]
      omega
    | none =>
      rw [hl] at h
      by_cases hx : x = c
      · simp only [hx, if_true, Option.some.injEq] at h
        simp only [List.length_cons]
        omega
      · simp [hx] at h

/-- The checked first part of `net.SplitHostPort` never aborts when the
position `i` of the last colon lies in the string. -/
theorem Checked.splitHost_eq (s : List Char) (i : Nat) (hi : i < s.length) :
    Checked.splitHost s i = .ok (Shortcut.splitHost s i) := by
  unfold Checked.splitHost Shortcut.splitHost
  cases s with
  | nil => simp at hi
  | cons x xs =>
    have h0 : indexAt (x :: xs) 0 = .ok x := by simp [indexAt]
    rw [h0]
    simp only [Except.bind, List.head?_cons, Option.some.injEq]
    by_cases hx : x = '['
    · simp only [hx, if_true]
      cases he : indexByte ('[' :: xs) ']' with
      | none => rfl
      | some e =>
        obtain ⟨helt, hget⟩ := indexByte_some_lt _ _ e he
        simp only
        by_cases h1 : e + 1 = ('[' :: xs).length
        · simp [h1]
        · rw [if_neg h1, if_neg h1]
          by_cases h2 : e + 1 = i
          · rw [if_pos h2, if_pos h2]
            have hpos : 1 ≤ e := by
              rcases Nat.eq_zero_or_pos e with h0e | hp
              · subst h0e
                simp at hget
              · exact hp
            rw [sliceAt_of_le _ 1 e hpos (by omega)]
          · rw [if_neg h2, if_neg h2]
            have hin : e + 1 < ('[' :: xs).length := by omega
            have hnext : ('[' :: xs)[e + 1]? = some (('[' :: xs)[e + 1]) :=
              List.getElem?_eq_getElem hin
            rw [indexAt_of_getElem? _ _ _ hnext, hnext]
            simp only [Option.some.injEq]
            split <;> rfl
    · simp only [hx, if_false]
      rw [sliceAt_from_start _ i (by omega)]
      simp only
      by_cases h4 : (indexByte (List.take i (x :: xs)) ':').isSome = true
      · simp [h4]
      · simp [h4]

theorem splitHost_bounds (s : List Char) (i : Nat) (hi : i < s.length)
    (host : List Char) (j k : Nat) (h : Shortcut.splitHost s i = .ok (host, j, k)) :
    j ≤ s.length ∧ k ≤ s.length := by
  unfold Shortcut.splitHost at h
  by_cases hx : s.head? = some '['
  · rw [if_pos hx] at h
    cases he : indexByte s ']' with
    | none => rw [he] at h; simp at h
    | some e =>
      rw [he] at h
      simp only at h
      by_cases h1 : e + 1 = s.length
      · simp [h1] at h
      · rw [if_neg h1] at h
        by_cases h2 : e + 1 = i
        · rw [if_pos h2] at h
          simp only [Except.ok.injEq, Prod.mk.injEq] at h
          obtain ⟨_, hj, hk⟩ := h
          omega
        · rw [if_neg h2] at h
          split at h <;> simp at h
  · rw [if_neg hx] at h
    simp only at h
    split at h
    · simp at h
    · simp only [Except.ok.injEq, Prod.mk.injEq] at h
      obtain ⟨_, hj, hk⟩ := h
      omega

/-- The checked `net.SplitHostPort` never aborts, whatever the string, and
yields what `net.SplitHostPort` yields. -/
theorem Checked.SplitHostPort_eq (hostport : String) :
    Checked.SplitHostPort hostport = .ok (Shortcut.SplitHostPort hostport) := by
  unfold Checked.SplitHostPort Shortcut.SplitHostPort
  cases hl : lastIndexByte hostport.data ':' with
  | none => simp only [hl]
  | some i =>
    have hi := lastIndexByte_some_lt _ _ i hl
    simp only [hl]
    rw [Checked.splitHost_eq _ i hi]
    simp only [Except.bind]
    cases hs : Shortcut.splitHost hostport.data i with
    | error e => rfl
    | ok r =>
      obtain ⟨host, j, k⟩ := r
      obtain ⟨hj, hk⟩ := splitHost_bounds _ i hi host j k hs
      simp only
      rw [sliceAt_to_end _ j hj, sliceAt_to_end _ k hk, sliceAt_to_end _ (i + 1) (by omega)]
      simp only [Except.bind]
      by_cases h1 : (indexByte (List.drop j hostport.data) '[').isSome = true
      · simp [h1]
      · by_cases h2 : (indexByte (List.drop k hostport.data) ']').isSome = true
        · simp [h1, h2]
        · simp [h1, h2]

theorem Checked.aboveAt_eq (sorted : List cidrBlock) (v i : Nat) (hi : i < sorted.length) :
    Checked.aboveAt sorted v i = .ok (Shortcut.aboveAt sorted v i) := by
  unfold Checked.aboveAt Shortcut.aboveAt
  have h : sorted[i]? = some (sorted[i]) := List.getElem?_eq_getElem hi
  rw [indexAt_of_getElem? _ _ _ h, h]
  rfl

/-- The binary search asks its predicate at positions of the range only: with
a predicate that aborts outside `[0, n)` it never aborts on a range within
`[0, n)`, and finds what the search with the total predicate finds. -/
theorem Checked.searchLoop_eq (f : Nat → Except Abort Bool) (g : Nat → Bool) (n : Nat)
    (hfg : ∀ h, h < n → f h = .ok (g h)) (fuel : Nat) :
    ∀ i j, j ≤ n → Checked.searchLoop f fuel i j = .ok (Shortcut.searchLoop g fuel i j) := by
  induction fuel with
  | zero => intro i j _; rfl
  | succ k ih =>
    intro i j hj
    unfold Checked.searchLoop Shortcut.searchLoop
    by_cases hlt : i < j
    · rw [if_pos hlt, if_pos hlt, hfg ((i + j) / 2) (by omega)]
      simp only [Except.bind]
      cases hg : g ((i + j) / 2) with
      | true =>
        simp only [Bool.not_true, Bool.false_eq_true, if_false]
        exact ih i ((i + j) / 2) (by omega)
      | false =>
        simp only [Bool.not_false, if_true]
        exact ih ((i + j) / 2 + 1) j hj
    · rw [if_neg hlt, if_neg hlt]

/-- The position found by the binary search lies in the range searched. -/
theorem searchLoop_le (g : Nat → Bool) (fuel : Nat) :
    ∀ i j, i ≤ j → Shortcut.searchLoop g fuel i j ≤ j := by
  induction fuel with
  | zero => intro i j h; exact h
  | succ k ih =>
    intro i j h
    unfold Shortcut.searchLoop
    by_cases hlt : i < j
    · rw [if_pos hlt]
      cases hg : g ((i + j) / 2) with
      | true =>
        have := ih i ((i + j) / 2) (by omega)
        simp only [hg, Bool.not_true, Bool.false_eq_true, if_false]
        omega
      | false =>
        simp only [hg, Bool.not_false, if_true]
        exact ih ((i + j) / 2 + 1) j (by omega)
    · rw [if_neg hlt]
      exact h

/-- The checked query through a pointer aborts for the nil pointer only, and
otherwise yields what the query yields. -/
theorem Checked.Contains_eq (p : Option sortList) (ip : IP) :
    Checked.Contains p ip = containsAt p ip := by
  cases p with
  | none => rfl
  | some l =>
    unfold Checked.Contains containsAt sortList.Contains Search
    simp only
    rw [Checked.searchLoop_eq (Checked.aboveAt l.sorted (beValue ip.data))
      (Shortcut.aboveAt l.sorted (beValue ip.data)) l.sorted.length
      (fun h hh => Checked.aboveAt_eq l.sorted _ h hh) l.sorted.length 0 l.sorted.length
      (Nat.le_refl _)]
    simp only [Except.bind]
    rw [sliceAt_from_start _ _ (searchLoop_le _ _ 0 _ (Nat.zero_le _))]

/-- The checked loop of `Allow` yields the result of the loop of `Allow`: the
only step of it that can abort is a query through a nil pointer. -/
theorem Checked.allowLoop_eq {Ctx : Type} (s : shortcut Ctx) (addrs : List IPAddr) :
    Checked.allowLoop s addrs = (Shortcut.allowLoop s addrs).result := by
  induction addrs with
  | nil => rfl
  | cons a rest ih =>
    unfold Checked.allowLoop Shortcut.allowLoop
    rw [Checked.To4_eq]
    simp only [Except.bind]
    by_cases ha : a.IP.To4 = .nil
    · rw [ha, Checked.To16_eq, To16_nil]
      simp only [Except.bind, ne_eq, not_true_eq_false, if_false]
      exact ih
    · simp only [ne_eq, ha, not_false_eq_true, if_true]
      rw [Checked.Contains_eq]
      cases containsAt s.v4list a.IP.To4 <;> rfl

/-- The checked `Allow` yields the result of `Allow`, for every shortcut. -/
theorem Checked.Allow_eq {Ctx : Type} (s : shortcut Ctx) (ctx : Ctx) (addr : String) :
    Checked.Allow s ctx addr = (s.Allow ctx addr).result := by
  unfold Checked.Allow shortcut.Allow hostOf
  rw [Checked.SplitHostPort_eq]
  simp only [Except.bind]
  cases s.resolver.LookupIPAddr ctx
      (match Shortcut.SplitHostPort addr with
        | .ok (host, _) => host
        | .error _ => addr) with
  | error e => rfl
  | ok addrs => exact Checked.allowLoop_eq s addrs

/-- The checks are not idle: an index expression out of range, a slice
expression out of range and a query through a nil pointer abort. -/
theorem checks_abort :
    indexAt [(1 : Nat), 2, 3] 3 = .error .indexOutOfRange ∧
    sliceAt [(1 : Nat), 2, 3] 2 4 = .error .sliceOutOfRange ∧
    sliceAt [(1 : Nat), 2, 3] 2 1 = .error .sliceOutOfRange ∧
    Checked.Allow (⟨none, none, exampleResolver⟩ : shortcut Unit) () "93.184.216.34:443"
      = .error .nilDereference :=
  ⟨rfl, rfl, rfl, rfl⟩

/-- C10: on a shortcut built by `New`, `Allow` with every index expression,
every slice expression and every call through an index pointer checked
returns a pair, for every context, every destination and every resolver: no
step aborts, and the pair is the one that `Allow` returns. Both index
pointers are set after `New`, and `To16` applied on line 70 to the nil result
of `To4` does not abort and yields nil. -/
theorem Allow_total {Ctx : Type} (r : Resolver Ctx) (v4 v6 : List String) (ctx : Ctx)
    (addr : String) :
    (∃ l4 l6, (New r v4 v6).v4list = some l4 ∧ (New r v4 v6).v6list = some l6) ∧
    Checked.To16 IP.nil = .ok IP.nil ∧
    (∃ hostport, Checked.SplitHostPort addr = .ok hostport) ∧
    ∃ b ip, Checked.Allow (New r v4 v6) ctx addr = .ok (b, ip) ∧
      ((New r v4 v6).Allow ctx addr).result = .ok (b, ip) := by
  refine ⟨⟨newSortList v4, newSortList v6, rfl, rfl⟩, rfl,
    ⟨_, Checked.SplitHostPort_eq addr⟩, ?_⟩
  rw [Checked.Allow_eq]
  cases hres : r.LookupIPAddr ctx (hostOf addr) with
  | error e =>
    exact ⟨false, .nil, by rw [Allow_error (New r v4 v6) ctx addr e hres],
      by rw [Allow_error (New r v4 v6) ctx addr e hres]⟩
  | ok addrs =>
    rw [Allow_ok (New r v4 v6) ctx addr addrs hres]
    rcases allowLoop_cases addrs with hn | ⟨pre, a, post, he, hp, ha⟩
    · exact ⟨false, .nil, by rw [allowLoop_none _ addrs hn], by rw [allowLoop_none _ addrs hn]⟩
    · refine ⟨(newSortList v4).Contains a.IP.To4, a.IP.To4, ?_, ?_⟩
      · rw [he, allowLoop_skip _ pre (a :: post) hp, allowLoop_cons_v4 _ a post ha]
        rfl
      · rw [he, allowLoop_skip _ pre (a :: post) hp, allowLoop_cons_v4 _ a post ha]
        rfl

end Shortcut
